import Mathlib

/-!
Verification development for the door-schedule extraction pipeline
(`extract_json.py`).  Strings are modelled as lists of characters
(ASCII range, which covers the documents the tool targets); tables are
lists of rows of optional cells, as produced by the external table
source.  All definitions are direct translations of the Python source;
regular expressions are replaced by explicit deterministic matchers
(the patterns involved admit no backtracking ambiguity).
-/

namespace DoorExtract

abbrev Str := List Char

/-- Python whitespace class (ASCII part of regex `\s` / `str.strip`). -/
def isPySpace (c : Char) : Bool :=
  c = ' ' || c = '\t' || c = '\n' || c = '\r' || c = '\x0b' || c = '\x0c'

/-- ASCII uppercase conversion, modelling Python `str.upper` on the
ASCII inputs this pipeline processes. -/
def pyUpper (c : Char) : Char :=
  if c = 'a' then 'A' else if c = 'b' then 'B' else if c = 'c' then 'C'
  else if c = 'd' then 'D' else if c = 'e' then 'E' else if c = 'f' then 'F'
  else if c = 'g' then 'G' else if c = 'h' then 'H' else if c = 'i' then 'I'
  else if c = 'j' then 'J' else if c = 'k' then 'K' else if c = 'l' then 'L'
  else if c = 'm' then 'M' else if c = 'n' then 'N' else if c = 'o' then 'O'
  else if c = 'p' then 'P' else if c = 'q' then 'Q' else if c = 'r' then 'R'
  else if c = 's' then 'S' else if c = 't' then 'T' else if c = 'u' then 'U'
  else if c = 'v' then 'V' else if c = 'w' then 'W' else if c = 'x' then 'X'
  else if c = 'y' then 'Y' else if c = 'z' then 'Z' else c

def upperStr (s : Str) : Str := s.map pyUpper

/-- Python `str.strip()`. -/
def strip (s : Str) : Str :=
  ((s.dropWhile isPySpace).reverse.dropWhile isPySpace).reverse

/-- Collapse each maximal whitespace run into a single blank
(the effect of `re.sub(r"\s+", " ", text)`); the boolean records
whether the previous character was whitespace. -/
def collapseWsGo : Bool → Str → Str
  | _, [] => []
  | prev, c :: cs =>
    if isPySpace c then
      if prev then collapseWsGo true cs else ' ' :: collapseWsGo true cs
    else c :: collapseWsGo false cs

/-- `clean_text`: collapse whitespace and trim. -/
def clean_text (s : Str) : Str := strip (collapseWsGo false s)

/-- Python `str.split("\n")` (keeps empty pieces). -/
def splitNlGo (cur : Str) : Str → List Str
  | [] => [cur.reverse]
  | c :: cs => if c = '\n' then cur.reverse :: splitNlGo [] cs else splitNlGo (c :: cur) cs

def splitNl (s : Str) : List Str := splitNlGo [] s

/-- Python no-argument `str.split()`: maximal nonblank runs.
Structural in an explicit fuel argument so concrete inputs evaluate
inside the kernel. -/
def splitWsF : Nat → Str → List Str
  | 0, _ => []
  | _ + 1, [] => []
  | f + 1, c :: cs =>
    if isPySpace c then splitWsF f cs
    else (c :: cs.takeWhile (fun x => !isPySpace x)) ::
      splitWsF f (cs.dropWhile (fun x => !isPySpace x))

def splitWs (s : Str) : List Str := splitWsF s.length s

/-- Python `" ".join`. -/
def joinSpace : List Str → Str
  | [] => []
  | [x] => x
  | x :: y :: xs => x ++ ' ' :: joinSpace (y :: xs)

/-- Python substring test (the `in` operator on strings). -/
def containsS (needle hay : Str) : Bool :=
  hay.tails.any (fun t => needle.isPrefixOf t)

/-- Python `str.count` for a fixed nonempty needle: non-overlapping
occurrences scanning left to right. -/
def countOccF (needle : Str) : Nat → Str → Nat
  | 0, _ => 0
  | _ + 1, [] => 0
  | f + 1, c :: cs =>
    if needle.isPrefixOf (c :: cs) then 1 + countOccF needle f ((c :: cs).drop needle.length)
    else countOccF needle f cs

def countOcc (needle hay : Str) : Nat := countOccF needle hay.length hay

/-- Python `str.isdigit()` on ASCII: nonempty and all digits. -/
def isdigitS (s : Str) : Bool := !s.isEmpty && s.all Char.isDigit

/-- Full match of `\d+[A-Z]+` (the variant-token shape tested with
`re.match(r"^\d+[A-Z]+$", tok)`). -/
def variantTokB (s : Str) : Bool :=
  let d := s.takeWhile Char.isDigit
  let r := s.dropWhile Char.isDigit
  !d.isEmpty && !r.isEmpty && r.all Char.isUpper

/-- `re.match(r"^(\d+[A-Z]*)(?:\s|\(|$)", part + " ")`: leading digits,
then uppercase letters, then a whitespace or an opening parenthesis
(the appended blank makes end-of-string fall in the whitespace case).
Returns the captured group. -/
def variantMatch (p : Str) : Option Str :=
  let s := p ++ [' ']
  let d := s.takeWhile Char.isDigit
  if d.isEmpty then none
  else
    let r1 := s.dropWhile Char.isDigit
    let L := r1.takeWhile Char.isUpper
    match r1.dropWhile Char.isUpper with
    | [] => some (d ++ L)
    | c :: _ => if isPySpace c || c = '(' then some (d ++ L) else none

/-- Full match of `^\d+[A-Z]\s+\d+[A-Z]$` (the legacy FD1 variant line). -/
def fd1VarLineB (l : Str) : Bool :=
  let d1 := l.takeWhile Char.isDigit
  if d1.isEmpty then false
  else
    match l.dropWhile Char.isDigit with
    | [] => false
    | u1 :: r =>
      if !u1.isUpper then false
      else
        let w := r.takeWhile isPySpace
        if w.isEmpty then false
        else
          let r2 := r.dropWhile isPySpace
          let d2 := r2.takeWhile Char.isDigit
          if d2.isEmpty then false
          else
            match r2.dropWhile Char.isDigit with
            | [u2] => u2.isUpper
            | _ => false

def litWx : Str := "(W)x".data
def litH : Str := "(H)".data

/-- Match the regex `\d+\(W\)x\d+\(H\)` at the head of the string:
a maximal digit run, the literal characters of the pattern, a second
maximal digit run, the closing literal.  Returns the matched text and
the remainder.  (The regex engine cannot produce any other match here:
shrinking a greedy digit run leaves a digit where a parenthesis is
required.) -/
def dimAt (s : Str) : Option (Str × Str) :=
  let d1 := s.takeWhile Char.isDigit
  if d1.isEmpty then none
  else
    let r1 := s.dropWhile Char.isDigit
    if litWx.isPrefixOf r1 then
      let r2 := r1.drop litWx.length
      let d2 := r2.takeWhile Char.isDigit
      if d2.isEmpty then none
      else
        let r3 := r2.dropWhile Char.isDigit
        if litH.isPrefixOf r3 then
          some (d1 ++ litWx ++ d2 ++ litH, r3.drop litH.length)
        else none
    else none

/-- `re.findall(r"\d+\(W\)x\d+\(H\)", s)`: leftmost non-overlapping
matches, scanning left to right. -/
def findallDimF : Nat → Str → List Str
  | 0, _ => []
  | _ + 1, [] => []
  | f + 1, c :: cs =>
    match dimAt (c :: cs) with
    | some (m, rest) => m :: findallDimF f rest
    | none => findallDimF f cs

def findallDim (s : Str) : List Str := findallDimF s.length s

/-- `re.search(r"\d+\(W\)x\d+\(H\)", s)` and its `.group(0)`. -/
def searchDim (s : Str) : Option Str := (findallDim s).head?

/-- Truthiness of `re.search(r"\d+\(W\)x\d+\(H\)", s)`. -/
def containsDimB (s : Str) : Bool := !(findallDim s).isEmpty

/-- `re.match(r"^\d+\(W\)x\d+\(H\)$", s)`: the whole string is one
dimension token. -/
def fullMatchDim (s : Str) : Bool :=
  match dimAt s with
  | some (_, rest) => rest.isEmpty
  | none => false

/-! String literals used by the pipeline. -/

def litDOORTYPE : Str := "DOOR TYPE".data
def litFIRE1 : Str := "FIRE-RATING".data
def litFIRE2 : Str := "FIRE RATING".data
def litDESCRIPTION : Str := "DESCRIPTION".data
def litLOCATION : Str := "LOCATION".data
def litREMARKS : Str := "REMARKS".data
def litELEVATION : Str := "ELEVATION".data
def litTENDER : Str := "TENDER DRAWING".data
def litDRAWTITLE : Str := "DRAWING TITLE".data
def litPRECINCT : Str := "PRECINCT".data
def litDRAWING : Str := "DRAWING".data
def litPROJECT : Str := "PROJECT".data
def lit000W : Str := "000(W)".data
def lit000Wx : Str := "000(W)x".data
def litWxH : Str := "(W)x(H)".data
def litFD1 : Str := "FD1".data
def litFD1FD1 : Str := "FD1 FD1".data

/-- One extracted door record, with the field names of the emitted
JSON objects. -/
structure DoorRecord where
  door_type : Str
  dimensions : Str
  fire_rating : Str
  description : Str
  location : Str
  remarks : Str
deriving DecidableEq, Repr

def mkDoor (dt dims fr de lo re : Str) : DoorRecord :=
  ⟨dt, dims, fr, de, lo, re⟩

/-- The nonempty stripped lines of a cell text:
`[l.strip() for l in text.strip().split("\n") if l.strip()]`. -/
def stripLines (t : Str) : List Str :=
  ((splitNl (strip t)).map strip).filter (fun l => !l.isEmpty)

/-- One step of the `for line in lines[1:]` loop of `parse_door_type`;
the state is the pair (dimensions, variant). -/
def pdtStep (st : Str × Str) (line : Str) : Str × Str :=
  let dims := st.1
  let var := st.2
  if containsDimB line then
    let parts := splitWs line
    if 2 ≤ parts.length then
      let fp := parts.headD []
      if isdigitS fp || variantTokB fp then
        let joined := joinSpace parts.tail
        let dims2 := match searchDim joined with
          | some m => m
          | none => joined
        (dims2, fp)
      else (if dims.isEmpty then line else dims, var)
    else (if dims.isEmpty then line else dims, var)
  else
    match splitWs line with
    | [] => (dims, var)
    | fp :: _ =>
      if (isdigitS fp || variantTokB fp) && var.isEmpty then (dims, fp)
      else (dims, var)

/-- `parse_door_type`: extract the door code (with variant suffix) and
the dimension string from a door-type cell text; `none` when the cell
is rejected. -/
def parse_door_type (t : Str) : Option (Str × Str) :=
  match stripLines t with
  | [] => none
  | code :: rest =>
    if !code.any Char.isUpper then none
    else if lit000W.isPrefixOf code then none
    else if containsS litPRECINCT code || containsS litDRAWING code
        || containsS litPROJECT code then none
    else
      let code_parts := splitWs code
      let clean_code := code_parts.headD []
      let embedded := (code_parts.find? (fun p => containsDimB p)).getD []
      let st := rest.foldl pdtStep (embedded, [])
      some ((if st.2.isEmpty then clean_code else clean_code ++ '/' :: st.2), st.1)

/-! Multi-door splitting (`split_multi_door_column`). -/

/-- The token stream of all lines after the first. -/
def allTokensAfterFirst (t : Str) : List Str :=
  ((stripLines t).tail.map splitWs).flatten

/-- First token equal to the truncated dimension whose immediately
preceding token is a single digit. -/
def findPrevDigit : List Str → Str → Option Str
  | [], _ => none
  | [_], _ => none
  | a :: b :: rest, dim =>
    if b = dim && a.length = 1 && isdigitS a then some a
    else findPrevDigit (b :: rest) dim

/-- Repair of a dimension that lost its leading digit
(`"000(W)x..."` with a single-digit token right before it). -/
def repairDim (tokens : List Str) (dim : Str) : Str :=
  if lit000Wx.isPrefixOf dim then
    match findPrevDigit tokens dim with
    | some a => a ++ dim
    | none => dim
  else dim

/-- All dimension substrings of the whole cell text, in order, after
the split-dimension repair. -/
def collectedDims (t : Str) : List Str :=
  (findallDim t).map (repairDim (allTokensAfterFirst t))

/-- Accept a variant candidate: at most two characters, or not purely
numeric (three-plus digit numerals are dimension widths). -/
def variantOK (v : Str) : Bool := v.length ≤ 2 || !isdigitS v

/-- Inner token loop of the dedicated-variant-line scan, with the
early exit once enough variants are collected. -/
def phase1Parts (nd : Nat) : List Str → List Str → List Str
  | acc, [] => acc
  | acc, p :: ps =>
    match p with
    | [] => phase1Parts nd acc ps
    | c :: _ =>
      if c.isDigit then
        match variantMatch p with
        | some v =>
          if variantOK v then
            let acc2 := acc ++ [v]
            if nd ≤ acc2.length then acc2 else phase1Parts nd acc2 ps
          else phase1Parts nd acc ps
        | none => phase1Parts nd acc ps
      else phase1Parts nd acc ps

/-- Inner token loop of the mixed-line fallback scan: same matching
rule, plus deduplication. -/
def phase2Parts (nd : Nat) : List Str → List Str → List Str
  | acc, [] => acc
  | acc, p :: ps =>
    match p with
    | [] => phase2Parts nd acc ps
    | c :: _ =>
      if !containsS litWxH p && c.isDigit then
        match variantMatch p with
        | some v =>
          if variantOK v && !acc.contains v then
            let acc2 := acc ++ [v]
            if nd ≤ acc2.length then acc2 else phase2Parts nd acc2 ps
          else phase2Parts nd acc ps
        | none => phase2Parts nd acc ps
      else phase2Parts nd acc ps

/-- Variant collection over the lines after the first: first look for
dedicated variant lines (no dimension token, at least `nd` tokens);
if that yields fewer than `nd` variants, scan all those lines. -/
def collectVariants (nd : Nat) (rest : List Str) : List Str :=
  let p1 := rest.foldl
    (fun acc l =>
      if nd ≤ acc.length then acc
      else
        let parts := splitWs l
        if parts.any (fun p => containsDimB p) then acc
        else if nd ≤ parts.length then phase1Parts nd acc parts
        else acc)
    []
  if nd ≤ p1.length then p1
  else rest.foldl (fun acc l => phase2Parts nd acc (splitWs l)) p1

/-- The records produced by the main strategy (one per occurrence of
the base code in the first line). -/
def mainRecords (t fr de lo re base : Str) (nd : Nat) (rest : List Str) :
    List DoorRecord :=
  (List.range nd).map (fun i =>
    let v := (collectVariants nd rest).getD i []
    let d := (collectedDims t).getD i []
    mkDoor (if v.isEmpty then base else base ++ '/' :: v) d fr de lo re)

/-- One line of the legacy FD1 scan: lines containing "(W)x" extend
the dimension list, a line of exactly two variant-shaped tokens
replaces the variant list. -/
def fd1Step (acc : List Str × List Str) (l : Str) : List Str × List Str :=
  if containsS litWx l then (acc.1 ++ findallDim l, acc.2)
  else if fd1VarLineB l then (acc.1, splitWs l)
  else acc

/-- The legacy FD1 block at the end of `split_multi_door_column`
(reached only when the main strategy produced no records). -/
def fd1FallbackCode (t fr de lo re : Str) : List DoorRecord :=
  if containsS litFD1FD1 t then
    let lines := ((splitNl t).map strip).filter (fun l => !l.isEmpty)
    let p := lines.foldl fd1Step ([], [])
    let nd := max (max p.1.length p.2.length) 2
    (List.range nd).map (fun i =>
      let v := p.2.getD i []
      mkDoor (if v.isEmpty then litFD1 else litFD1 ++ '/' :: v)
        (p.1.getD i []) fr de lo re)
  else []

/-- `split_multi_door_column`: expand a cell that encodes several
doors into one record per door. -/
def split_multi_door_column (t fr de lo re : Str) : List DoorRecord :=
  let lines := stripLines t
  if lines.length < 2 then []
  else
    match splitWs (lines.headD []) with
    | [] => []
    | base :: rps =>
      let nd := (base :: rps).count base
      if nd < 2 then []
      else
        let doors := mainRecords t fr de lo re base nd lines.tail
        if doors.isEmpty then fd1FallbackCode t fr de lo re else doors

/-- Steps 1 to 5 of the splitter on their own (the main algorithm,
without the legacy FD1 block). -/
def splitMainDoors (t fr de lo re : Str) : List DoorRecord :=
  let lines := stripLines t
  if lines.length < 2 then []
  else
    match splitWs (lines.headD []) with
    | [] => []
    | base :: rps =>
      let nd := (base :: rps).count base
      if nd < 2 then []
      else mainRecords t fr de lo re base nd lines.tail

/-- Modelled from the spec's step 6 wording, to compare with the code:
dimensions from any line containing "(W)x" in order of appearance,
variants from a line exactly matching two variant-shaped tokens, and
the greater of (dimension count, variant count, 2) FD1 records. -/
def fd1LegacyRule (t fr de lo re : Str) : List DoorRecord :=
  let lines := ((splitNl t).map strip).filter (fun l => !l.isEmpty)
  let p := lines.foldl fd1Step ([], [])
  let nd := max (max p.1.length p.2.length) 2
  (List.range nd).map (fun i =>
    let v := p.2.getD i []
    mkDoor (if v.isEmpty then litFD1 else litFD1 ++ '/' :: v)
      (p.1.getD i []) fr de lo re)

/-! Record validation (`is_valid_door_entry`). -/

def invalid_patterns : List Str :=
  [litTENDER, litDRAWTITLE, "PRECINCT NAME".data, "PROJECT TITLE".data,
   "LOT NO".data, "MUKIM NO".data, "JOB TITLE".data, "DRAWN BY".data,
   "CHECKED BY".data, "SCALE".data, "DATE".data, "REV".data, litDESCRIPTION]

/-- `is_valid_door_entry`: reject metadata markers, bare dimension
tokens, and door types without an uppercase letter. -/
def is_valid_door_entry (d : DoorRecord) : Bool :=
  let dt := strip d.door_type
  if invalid_patterns.any (fun p => containsS p (upperStr dt)) then false
  else if lit000Wx.isPrefixOf dt || fullMatchDim dt then false
  else dt.any Char.isUpper

/-! Table-level extraction (`extract_doors_from_table`). -/

abbrev Cell := Option Str
abbrev Table := List (List Cell)

/-- The trimmed column-0 label of a row, when the row is nonempty and
the cell is a nonempty string (`if row and row[0]`). -/
def rowLabel (table : Table) (i : Nat) : Option Str :=
  match (table.getD i []).headD none with
  | some s => if s.isEmpty then none else some (strip s)
  | none => none

def anchorAt (table : Table) (i : Nat) : Bool :=
  rowLabel table i = some litDOORTYPE

/-- All indices of rows whose column-0 text equals "DOOR TYPE". -/
def findAnchors (table : Table) : List Nat :=
  (List.range table.length).filter (anchorAt table)

/-- Recorded field-row indices of one section. -/
structure SectionSt where
  fire : Option Nat := none
  desc : Option Nat := none
  loc : Option Nat := none
  rem : Option Nat := none
deriving DecidableEq, Repr

/-- Update the section state for the label of row `i`. -/
def stepLabel (st : SectionSt) (i : Nat) (l : Str) : SectionSt :=
  if l = litFIRE1 || l = litFIRE2 then { st with fire := some i }
  else if l = litDESCRIPTION then { st with desc := some i }
  else if l = litLOCATION then { st with loc := some i }
  else if l = litREMARKS then { st with rem := some i }
  else st

/-- The label scan of a section: rows from `i` for `fuel` steps,
stopping early at an "ELEVATION" row; returns the recorded indices
and the effective section end. -/
def scanGo (table : Table) : Nat → Nat → SectionSt → SectionSt × Nat
  | 0, i, st => (st, i)
  | f + 1, i, st =>
    match rowLabel table i with
    | some l =>
      if l = litELEVATION then (st, i)
      else scanGo table f (i + 1) (stepLabel st i l)
    | none => scanGo table f (i + 1) st

/-- Scan labels of the section `[a, b)`. -/
def scanLabels (table : Table) (a b : Nat) : SectionSt × Nat :=
  scanGo table (b - a) a {}

/-- One field value at a column: cleaned text when the row has a
nonempty cell there, empty otherwise. -/
def getField (row : List Cell) (col : Nat) : Str :=
  match row.getD col none with
  | some s => if s.isEmpty then [] else clean_text s
  | none => []

/-- Whether the trimmed cell text is exactly one dimension token
(the continuation-fragment test). -/
def isContinuationCell (row : List Cell) (j : Nat) : Bool :=
  match row.getD j none with
  | some s => fullMatchDim (strip s)
  | none => false

/-- Merge a continuation fragment from the next one or two columns
into the current door-type text, stopping at the first match. -/
def mergeContinuation (row : List Cell) (col : Nat) (text : Str) : Str :=
  if isContinuationCell row (col + 1) then
    text ++ ' ' :: (row.getD (col + 1) none).getD []
  else if isContinuationCell row (col + 2) then
    text ++ ' ' :: (row.getD (col + 2) none).getD []
  else text

/-- The multi-door heuristic on the (merged) cell text: the first
whitespace token occurs again in the remaining text, or more than one
"(W)x" occurrence. -/
def multiHeuristic (t : Str) : Bool :=
  (let fw := (splitWs t).headD []
   !fw.isEmpty && containsS fw (t.drop fw.length))
  || decide (1 < countOcc litWx t)

/-- Processing of one data column of a section. -/
def processColumn (dtRow frRow deRow loRow reRow : List Cell) (col : Nat) :
    List DoorRecord :=
  match dtRow.getD col none with
  | none => []
  | some s =>
    if (strip s).isEmpty then []
    else if containsS litTENDER s || containsS litDRAWTITLE s then []
    else
      let text := mergeContinuation dtRow col s
      match parse_door_type text with
      | none => []
      | some (code, dims) =>
        let fr := getField frRow col
        let de := getField deRow col
        let lo := getField loRow col
        let re := getField reRow col
        if multiHeuristic text then split_multi_door_column text fr de lo re
        else [mkDoor code dims fr de lo re]

/-- Processing of one section `[a, b)` of a table. -/
def processSection (table : Table) (a b : Nat) : List DoorRecord :=
  let st := (scanLabels table a b).1
  let dtRow := table.getD a []
  let frRow := match st.fire with | some k => table.getD k [] | none => []
  let deRow := match st.desc with | some k => table.getD k [] | none => []
  let loRow := match st.loc with | some k => table.getD k [] | none => []
  let reRow := match st.rem with | some k => table.getD k [] | none => []
  ((List.range' 1 (dtRow.length - 1)).map
    (processColumn dtRow frRow deRow loRow reRow)).flatten

/-- `extract_doors_from_table`. -/
def extract_doors_from_table (table : Table) : List DoorRecord :=
  if table.length < 2 then []
  else
    let anchors := findAnchors table
    if anchors.isEmpty then []
    else
      ((anchors.zip (anchors.tail ++ [table.length])).map
        (fun p => processSection table p.1 p.2)).flatten

/-- The records of one table that survive validation. -/
def validDoors (t : Table) : List DoorRecord :=
  (extract_doors_from_table t).filter is_valid_door_entry

/-- The body of `process_page`: tables are processed in order inside
one try block, so the first table whose extraction or parsing raises
(modelled as `Except.error`) ends the page with the records
accumulated so far. -/
def ppGo (acc : List DoorRecord) : List (Except Unit Table) → List DoorRecord
  | [] => acc
  | Except.error _ :: _ => acc
  | Except.ok t :: rest => ppGo (acc ++ validDoors t) rest

/-- `process_page` restricted to its table loop. -/
def processPageTables (tl : List (Except Unit Table)) : List DoorRecord :=
  ppGo [] tl

/-- Aggregation over pages: each page is processed independently and
results are concatenated in page order. -/
def processPages (pages : List (List (Except Unit Table))) : List DoorRecord :=
  (pages.map processPageTables).flatten

/-- What claim C2 predicts for a page: every non-failing table
contributes its valid records. -/
def claimC2expected (tl : List (Except Unit Table)) : List DoorRecord :=
  (tl.map (fun e => match e with
    | Except.ok t => validDoors t
    | Except.error _ => [])).flatten

/-! Basic character and span lemmas. -/

theorem ws_of_digit {c : Char} (h : c.isDigit = true) : isPySpace c = false := by
  by_cases hw : isPySpace c = true
  · exfalso
    simp only [isPySpace, Bool.or_eq_true, decide_eq_true_eq] at hw
    rcases hw with ((((h1 | h1) | h1) | h1) | h1) | h1 <;> subst h1 <;> simp at h
  · simpa using hw

theorem takeWhile_all_append {p : Char → Bool} {d r : Str} (hd : d.all p = true)
    (hr : ∀ c, r.head? = some c → p c = false) :
    (d ++ r).takeWhile p = d ∧ (d ++ r).dropWhile p = r := by
  induction d with
  | nil =>
    simp only [List.nil_append]
    cases r with
    | nil => simp
    | cons c r' =>
      have := hr c rfl
      simp [List.takeWhile_cons, List.dropWhile_cons, this]
  | cons a d' ih =>
    simp only [List.all_cons, Bool.and_eq_true] at hd
    have h2 := ih hd.2
    simp [List.takeWhile_cons, List.dropWhile_cons, hd.1, h2.1, h2.2]

theorem dropWhile_head_false {p : Char → Bool} {l : Str} {c : Char}
    (h : (l.dropWhile p).head? = some c) : p c = false := by
  induction l with
  | nil => simp at h
  | cons a l ih =>
    rw [List.dropWhile_cons] at h
    by_cases hp : p a = true
    · rw [if_pos hp] at h; exact ih h
    · rw [if_neg hp] at h
      simp only [List.head?_cons, Option.some.injEq] at h
      subst h
      simpa using hp

/-! The dimension-pattern matcher. -/

theorem litWx_head (x : Str) : (litWx ++ x).head? = some '(' := rfl

theorem litH_head (x : Str) : (litH ++ x).head? = some '(' := rfl

theorem dimAt_eq_def (s : Str) : dimAt s =
    (if (s.takeWhile Char.isDigit).isEmpty then none
     else if litWx.isPrefixOf (s.dropWhile Char.isDigit) then
       if (((s.dropWhile Char.isDigit).drop litWx.length).takeWhile Char.isDigit).isEmpty
       then none
       else if litH.isPrefixOf
           (((s.dropWhile Char.isDigit).drop litWx.length).dropWhile Char.isDigit) then
         some (s.takeWhile Char.isDigit ++ litWx ++
             ((s.dropWhile Char.isDigit).drop litWx.length).takeWhile Char.isDigit ++ litH,
           ((((s.dropWhile Char.isDigit).drop litWx.length).dropWhile
             Char.isDigit)).drop litH.length)
       else none
     else none) := rfl

theorem dimAt_some {s m r : Str} (h : dimAt s = some (m, r)) :
    s = m ++ r ∧ ∃ d1 d2 : Str, m = d1 ++ litWx ++ d2 ++ litH ∧ d1 ≠ [] ∧
      d2 ≠ [] ∧ d1.all Char.isDigit = true ∧ d2.all Char.isDigit = true := by
  rw [dimAt_eq_def] at h
  by_cases h1 : (s.takeWhile Char.isDigit).isEmpty
  · simp [h1] at h
  rw [if_neg h1] at h
  by_cases h2 : litWx.isPrefixOf (s.dropWhile Char.isDigit)
  swap
  · simp [h2] at h
  rw [if_pos h2] at h
  obtain ⟨t, ht⟩ := List.isPrefixOf_iff_prefix.mp h2
  have hdrop : (s.dropWhile Char.isDigit).drop litWx.length = t := by
    rw [← ht, List.drop_left]
  rw [hdrop] at h
  by_cases h3 : (t.takeWhile Char.isDigit).isEmpty
  · simp [h3] at h
  rw [if_neg h3] at h
  by_cases h4 : litH.isPrefixOf (t.dropWhile Char.isDigit)
  swap
  · simp [h4] at h
  rw [if_pos h4] at h
  obtain ⟨u, hu⟩ := List.isPrefixOf_iff_prefix.mp h4
  have hdrop2 : (t.dropWhile Char.isDigit).drop litH.length = u := by
    rw [← hu, List.drop_left]
  rw [hdrop2] at h
  simp only [Option.some.injEq, Prod.mk.injEq] at h
  obtain ⟨hm, hr⟩ := h
  subst hr
  constructor
  · calc s = s.takeWhile Char.isDigit ++ s.dropWhile Char.isDigit :=
        (List.takeWhile_append_dropWhile _ _).symm
      _ = s.takeWhile Char.isDigit ++ (litWx ++ t) := by rw [ht]
      _ = s.takeWhile Char.isDigit ++
          (litWx ++ (t.takeWhile Char.isDigit ++ t.dropWhile Char.isDigit)) := by
        rw [List.takeWhile_append_dropWhile]
      _ = s.takeWhile Char.isDigit ++
          (litWx ++ (t.takeWhile Char.isDigit ++ (litH ++ u))) := by rw [hu]
      _ = m ++ u := by rw [← hm]; simp [List.append_assoc]
  · refine ⟨s.takeWhile Char.isDigit, t.takeWhile Char.isDigit, hm.symm, ?_, ?_, ?_, ?_⟩
    · simpa using h1
    · simpa using h3
    · exact List.all_eq_true.mpr (fun x hx => List.mem_takeWhile_imp hx)
    · exact List.all_eq_true.mpr (fun x hx => List.mem_takeWhile_imp hx)

theorem dimAt_build {d1 d2 : Str} (b : Str) (h1 : d1 ≠ []) (h2 : d2 ≠ [])
    (ha1 : d1.all Char.isDigit = true) (ha2 : d2.all Char.isDigit = true) :
    dimAt ((d1 ++ litWx ++ d2 ++ litH) ++ b) = some (d1 ++ litWx ++ d2 ++ litH, b) := by
  have e1 : (d1 ++ litWx ++ d2 ++ litH) ++ b = d1 ++ (litWx ++ (d2 ++ (litH ++ b))) := by
    simp [List.append_assoc]
  have tw1 := takeWhile_all_append (r := litWx ++ (d2 ++ (litH ++ b))) ha1
    (fun c hc => by rw [litWx_head] at hc; cases hc; decide)
  have tw2 := takeWhile_all_append (r := litH ++ b) ha2
    (fun c hc => by rw [litH_head] at hc; cases hc; decide)
  rw [e1, dimAt_eq_def, tw1.1, tw1.2]
  rw [if_neg (by simp only [List.isEmpty_iff]; exact h1)]
  have hp1 : litWx.isPrefixOf (litWx ++ (d2 ++ (litH ++ b))) = true :=
    List.isPrefixOf_iff_prefix.mpr (List.prefix_append _ _)
  rw [if_pos hp1, List.drop_left, tw2.1, tw2.2]
  rw [if_neg (by simp only [List.isEmpty_iff]; exact h2)]
  have hp2 : litH.isPrefixOf (litH ++ b) = true :=
    List.isPrefixOf_iff_prefix.mpr (List.prefix_append _ _)
  rw [if_pos hp2, List.drop_left]

theorem fullMatchDim_iff {m : Str} : fullMatchDim m = true ↔ dimAt m = some (m, []) := by
  constructor
  · intro h
    unfold fullMatchDim at h
    cases hd : dimAt m with
    | none => rw [hd] at h; simp at h
    | some p =>
      obtain ⟨m0, r⟩ := p
      rw [hd] at h
      simp only [List.isEmpty_iff] at h
      subst h
      have hme : m = m0 := by
        have := (dimAt_some hd).1
        simpa using this
      subst hme
      rfl
  · intro h
    unfold fullMatchDim
    rw [h]
    rfl

theorem fullMatch_build {d1 d2 : Str} (h1 : d1 ≠ []) (h2 : d2 ≠ [])
    (ha1 : d1.all Char.isDigit = true) (ha2 : d2.all Char.isDigit = true) :
    fullMatchDim (d1 ++ litWx ++ d2 ++ litH) = true := by
  rw [fullMatchDim_iff]
  have := dimAt_build [] h1 h2 ha1 ha2
  simpa using this

theorem dimAt_extend {m : Str} (b : Str) (h : fullMatchDim m = true) :
    dimAt (m ++ b) = some (m, b) := by
  obtain ⟨-, d1, d2, hm, h1, h2, ha1, ha2⟩ := dimAt_some (fullMatchDim_iff.mp h)
  rw [hm]
  exact dimAt_build b h1 h2 ha1 ha2

theorem dimAt_rest_lt {s m r : Str} (h : dimAt s = some (m, r)) :
    r.length < s.length := by
  obtain ⟨hs, d1, d2, hm, h1, -, -, -⟩ := dimAt_some h
  have hd1 : 1 ≤ d1.length := by
    cases d1 with
    | nil => exact absurd rfl h1
    | cons a l => simp
  have hml : 1 ≤ m.length := by
    rw [hm]
    simp only [List.length_append]
    omega
  rw [hs, List.length_append]
  omega

theorem findallDimF_fuel : ∀ (f g : Nat) (s : Str), s.length ≤ f → s.length ≤ g →
    findallDimF f s = findallDimF g s := by
  intro f
  induction f with
  | zero =>
    intro g s hf _
    have : s = [] := List.length_eq_zero.mp (Nat.le_zero.mp hf)
    subst this
    cases g <;> rfl
  | succ f ih =>
    intro g s hf hg
    cases s with
    | nil => cases g <;> rfl
    | cons c cs =>
      cases g with
      | zero => simp at hg
      | succ g' =>
        simp only [List.length_cons, Nat.succ_le_succ_iff] at hf hg
        show findallDimF (f + 1) (c :: cs) = findallDimF (g' + 1) (c :: cs)
        unfold findallDimF
        cases hd : dimAt (c :: cs) with
        | some p =>
          obtain ⟨m, rest⟩ := p
          have hlt := dimAt_rest_lt hd
          simp only [List.length_cons] at hlt
          show m :: findallDimF f rest = m :: findallDimF g' rest
          rw [ih g' rest (by omega) (by omega)]
        | none =>
          show findallDimF f cs = findallDimF g' cs
          exact ih g' cs hf hg

theorem findallDim_cons_some {c : Char} {cs m rest : Str}
    (h : dimAt (c :: cs) = some (m, rest)) :
    findallDim (c :: cs) = m :: findallDim rest := by
  have hlt := dimAt_rest_lt h
  simp only [List.length_cons] at hlt
  show findallDimF (c :: cs).length (c :: cs) = _
  simp only [List.length_cons]
  unfold findallDimF
  rw [h]
  show m :: findallDimF cs.length rest = m :: findallDim rest
  rw [findallDimF_fuel cs.length rest.length rest (by omega) (le_refl _)]
  rfl

theorem findallDim_cons_none {c : Char} {cs : Str} (h : dimAt (c :: cs) = none) :
    findallDim (c :: cs) = findallDim cs := by
  show findallDimF (c :: cs).length (c :: cs) = _
  simp only [List.length_cons]
  unfold findallDimF
  rw [h]
  show findallDimF cs.length cs = findallDim cs
  rfl

theorem findallDimF_full : ∀ (f : Nat) (s : Str), ∀ m ∈ findallDimF f s,
    fullMatchDim m = true := by
  intro f
  induction f with
  | zero => intro s m hm; simp [findallDimF] at hm
  | succ f ih =>
    intro s m hm
    cases s with
    | nil => simp [findallDimF] at hm
    | cons c cs =>
      unfold findallDimF at hm
      revert hm
      cases hd : dimAt (c :: cs) with
      | some p =>
        obtain ⟨m0, rest⟩ := p
        intro hm
        have hm' : m ∈ m0 :: findallDimF f rest := hm
        rcases List.mem_cons.mp hm' with h | h
        · subst h
          obtain ⟨-, d1, d2, hm0, h1, h2, ha1, ha2⟩ := dimAt_some hd
          rw [hm0]
          exact fullMatch_build h1 h2 ha1 ha2
        · exact ih rest m h
      | none =>
        intro hm
        have hm' : m ∈ findallDimF f cs := hm
        exact ih cs m hm'

theorem mem_findallDim_full {s m : Str} (h : m ∈ findallDim s) :
    fullMatchDim m = true :=
  findallDimF_full s.length s m h

theorem containsDim_iff {s : Str} :
    containsDimB s = true ↔ ∃ t, t <:+ s ∧ (dimAt t).isSome = true := by
  induction s with
  | nil =>
    constructor
    · intro h; simp [containsDimB, findallDim, findallDimF] at h
    · rintro ⟨t, ht, hsome⟩
      have : t = [] := List.suffix_nil.mp ht
      subst this
      simp [dimAt] at hsome
  | cons c cs ih =>
    cases hd : dimAt (c :: cs) with
    | some p =>
      obtain ⟨m, rest⟩ := p
      constructor
      · intro _
        exact ⟨c :: cs, List.suffix_refl _, by rw [hd]; rfl⟩
      · intro _
        simp [containsDimB, findallDim_cons_some hd]
    | none =>
      have heq : containsDimB (c :: cs) = containsDimB cs := by
        simp [containsDimB, findallDim_cons_none hd]
      rw [heq, ih]
      constructor
      · rintro ⟨t, ht, hsome⟩
        exact ⟨t, ht.trans (List.suffix_cons c cs), hsome⟩
      · rintro ⟨t, ht, hsome⟩
        rcases List.suffix_cons_iff.mp ht with h | h
        · subst h
          rw [hd] at hsome
          simp at hsome
        · exact ⟨t, h, hsome⟩

theorem containsDim_of_full_infix {m s : Str} (hf : fullMatchDim m = true)
    (h : m <:+: s) : containsDimB s = true := by
  obtain ⟨u, v, huv⟩ := h
  rw [containsDim_iff]
  refine ⟨m ++ v, ?_, ?_⟩
  · rw [← huv, List.append_assoc]
    exact List.suffix_append _ _
  · rw [dimAt_extend v hf]
    rfl

theorem searchDim_none_iff {s : Str} : searchDim s = none ↔ containsDimB s = false := by
  unfold searchDim containsDimB
  cases findallDim s <;> simp

/-! Whitespace tokenisation. -/

theorem splitWsF_fuel : ∀ (f g : Nat) (s : Str), s.length ≤ f → s.length ≤ g →
    splitWsF f s = splitWsF g s := by
  intro f
  induction f with
  | zero =>
    intro g s hf _
    have : s = [] := List.length_eq_zero.mp (Nat.le_zero.mp hf)
    subst this
    cases g <;> rfl
  | succ f ih =>
    intro g s hf hg
    cases s with
    | nil => cases g <;> rfl
    | cons c cs =>
      cases g with
      | zero => simp at hg
      | succ g' =>
        simp only [List.length_cons, Nat.succ_le_succ_iff] at hf hg
        show splitWsF (f + 1) (c :: cs) = splitWsF (g' + 1) (c :: cs)
        unfold splitWsF
        by_cases hc : isPySpace c = true
        · simp only [if_pos hc]
          exact ih g' cs hf hg
        · simp only [if_neg hc]
          have hlen : (cs.dropWhile (fun x => !isPySpace x)).length ≤ cs.length :=
            (List.dropWhile_sublist _).length_le
          rw [ih g' _ (le_trans hlen hf) (le_trans hlen hg)]

theorem splitWsF_succ_cons (f : Nat) (c : Char) (cs : Str) :
    splitWsF (f + 1) (c :: cs) =
      (if isPySpace c = true then splitWsF f cs
       else (c :: cs.takeWhile (fun x => !isPySpace x)) ::
         splitWsF f (cs.dropWhile (fun x => !isPySpace x))) := rfl

theorem splitWs_cons_ws {c : Char} {cs : Str} (h : isPySpace c = true) :
    splitWs (c :: cs) = splitWs cs := by
  show splitWsF (c :: cs).length (c :: cs) = splitWs cs
  simp only [List.length_cons]
  rw [splitWsF_succ_cons, if_pos h]
  rfl

theorem splitWs_cons_tok {c : Char} {cs : Str} (h : isPySpace c = false) :
    splitWs (c :: cs) = (c :: cs.takeWhile (fun x => !isPySpace x)) ::
      splitWs (cs.dropWhile (fun x => !isPySpace x)) := by
  show splitWsF (c :: cs).length (c :: cs) = _
  simp only [List.length_cons]
  rw [splitWsF_succ_cons, if_neg (by simp [h])]
  congr 1
  exact splitWsF_fuel cs.length _ _ ((List.dropWhile_sublist _).length_le) (le_refl _)

theorem prefix_of_nonws : ∀ (m x y : Str), (∀ c ∈ m, isPySpace c = false) →
    (∀ c, y.head? = some c → isPySpace c = true) → m <+: x ++ y → m <+: x := by
  intro m
  induction m with
  | nil => intro x y _ _ _; exact List.nil_prefix
  | cons a m' ih =>
    intro x y hm hy hp
    cases x with
    | nil =>
      simp only [List.nil_append] at hp
      obtain ⟨t, ht⟩ := hp
      have hhead : y.head? = some a := by rw [← ht]; rfl
      have h1 := hy a hhead
      have h2 := hm a (List.mem_cons_self a m')
      rw [h2] at h1
      exact absurd h1 (by simp)
    | cons b x' =>
      rw [List.cons_append] at hp
      obtain ⟨hab, hp'⟩ := List.cons_prefix_cons.mp hp
      subst hab
      have := ih x' y (fun c hc => hm c (List.mem_cons_of_mem _ hc)) hy hp'
      exact List.cons_prefix_cons.mpr ⟨rfl, this⟩

theorem infix_split_nonws : ∀ (x y m : Str), (∀ c ∈ m, isPySpace c = false) →
    (∀ c, y.head? = some c → isPySpace c = true) →
    m <:+: x ++ y → m <:+: x ∨ m <:+: y := by
  intro x
  induction x with
  | nil => intro y m _ _ h; exact Or.inr (by simpa using h)
  | cons b x' ih =>
    intro y m hm hy h
    rw [List.cons_append] at h
    rcases List.infix_cons_iff.mp h with hpre | hinf
    · have hp2 : m <+: (b :: x') ++ y := by simpa using hpre
      exact Or.inl ((prefix_of_nonws m (b :: x') y hm hy hp2).isInfix)
    · rcases ih y m hm hy hinf with h1 | h1
      · exact Or.inl (List.infix_cons h1)
      · exact Or.inr h1

theorem infix_token_aux : ∀ (n : Nat) (s m : Str), s.length ≤ n → m ≠ [] →
    (∀ c ∈ m, isPySpace c = false) → m <:+: s →
    ∃ tok ∈ splitWs s, m <:+: tok := by
  intro n
  induction n with
  | zero =>
    intro s m hlen hne _ h
    have : s = [] := List.length_eq_zero.mp (Nat.le_zero.mp hlen)
    subst this
    rw [List.infix_nil] at h
    exact absurd h hne
  | succ n ih =>
    intro s m hlen hne hm h
    cases s with
    | nil =>
      rw [List.infix_nil] at h
      exact absurd h hne
    | cons c cs =>
      simp only [List.length_cons, Nat.succ_le_succ_iff] at hlen
      by_cases hc : isPySpace c = true
      · have h' : m <:+: cs := by
          rcases List.infix_cons_iff.mp h with hpre | hinf
          · cases m with
            | nil => exact absurd rfl hne
            | cons a m' =>
              obtain ⟨hab, -⟩ := List.cons_prefix_cons.mp hpre
              have haw := hm a (List.mem_cons_self a m')
              rw [hab] at haw
              rw [haw] at hc
              simp at hc
          · exact hinf
        obtain ⟨tok, htok, hmt⟩ := ih cs m hlen hne hm h'
        exact ⟨tok, by rw [splitWs_cons_ws hc]; exact htok, hmt⟩
      · have hcf : isPySpace c = false := by simpa using hc
        have hsplit : c :: cs =
            (c :: cs.takeWhile (fun x => !isPySpace x)) ++
              cs.dropWhile (fun x => !isPySpace x) := by
          rw [List.cons_append, List.takeWhile_append_dropWhile]
        have hy : ∀ d, (cs.dropWhile (fun x => !isPySpace x)).head? = some d →
            isPySpace d = true := by
          intro d hd
          have := dropWhile_head_false hd
          simpa using this
        rw [hsplit] at h
        rcases infix_split_nonws _ _ m hm hy h with h1 | h1
        · refine ⟨c :: cs.takeWhile (fun x => !isPySpace x), ?_, h1⟩
          rw [splitWs_cons_tok hcf]
          exact List.mem_cons_self _ _
        · obtain ⟨tok, htok, hmt⟩ := ih (cs.dropWhile (fun x => !isPySpace x)) m
            (le_trans ((List.dropWhile_sublist _).length_le) hlen) hne hm h1
          refine ⟨tok, ?_, hmt⟩
          rw [splitWs_cons_tok hcf]
          exact List.mem_cons_of_mem _ htok

theorem infix_token {s m : Str} (hne : m ≠ [])
    (hm : ∀ c ∈ m, isPySpace c = false) (h : m <:+: s) :
    ∃ tok ∈ splitWs s, m <:+: tok :=
  infix_token_aux s.length s m (le_refl _) hne hm h

theorem infix_joinSpace : ∀ (l : List Str) (tok : Str), tok ∈ l →
    tok <:+: joinSpace l := by
  intro l
  induction l with
  | nil => intro tok h; simp at h
  | cons x xs ih =>
    intro tok h
    cases xs with
    | nil =>
      simp only [List.mem_singleton] at h
      subst h
      exact List.infix_refl _
    | cons y ys =>
      rcases List.mem_cons.mp h with h1 | h1
      · subst h1
        show tok <:+: tok ++ ' ' :: joinSpace (y :: ys)
        exact (List.prefix_append tok _).isInfix
      · have hrec := ih tok h1
        have hs : joinSpace (y :: ys) <:+ x ++ ' ' :: joinSpace (y :: ys) := by
          rw [List.append_cons]
          exact List.suffix_append _ _
        exact hrec.trans hs.isInfix

/-! Substring test. -/

theorem containsS_iff {m s : Str} : containsS m s = true ↔ m <:+: s := by
  unfold containsS
  rw [List.any_eq_true]
  constructor
  · rintro ⟨t, ht, hp⟩
    rw [List.mem_tails] at ht
    exact List.infix_iff_prefix_suffix.mpr ⟨t, List.isPrefixOf_iff_prefix.mp hp, ht⟩
  · intro h
    obtain ⟨t, hp, hs⟩ := List.infix_iff_prefix_suffix.mp h
    exact ⟨t, (List.mem_tails t s).mpr hs, List.isPrefixOf_iff_prefix.mpr hp⟩

theorem containsS_false_iff {m s : Str} : containsS m s = false ↔ ¬ m <:+: s := by
  rw [← containsS_iff]
  cases containsS m s <;> simp

/-! Stripping lemmas. -/

theorem strip_eq (s : Str) :
    strip s = ((s.dropWhile isPySpace).reverse.dropWhile isPySpace).reverse := rfl

theorem strip_prefix_dropWhile (s : Str) : strip s <+: s.dropWhile isPySpace := by
  rw [strip_eq, ← List.reverse_suffix, List.reverse_reverse]
  exact List.dropWhile_suffix _

theorem strip_infix_self (s : Str) : strip s <:+: s :=
  (strip_prefix_dropWhile s).isInfix.trans (List.dropWhile_suffix _).isInfix

theorem mem_of_mem_strip {c : Char} {s : Str} (h : c ∈ strip s) : c ∈ s :=
  (strip_infix_self s).sublist.subset h

theorem any_upper_of_strip {s : Str} (h : (strip s).any Char.isUpper = true) :
    s.any Char.isUpper = true := by
  rw [List.any_eq_true] at h ⊢
  obtain ⟨c, hc, hu⟩ := h
  exact ⟨c, mem_of_mem_strip hc, hu⟩

theorem infix_dropWhile_of_head {m s : Str} (hne : m ≠ [])
    (h1 : isPySpace (m.headD ' ') = false) (h : m <:+: s) :
    m <:+: s.dropWhile isPySpace := by
  obtain ⟨u, v, huv⟩ := h
  subst huv
  rw [List.append_assoc, List.dropWhile_append]
  by_cases he : (u.dropWhile isPySpace).isEmpty
  · rw [if_pos he]
    have hid : (m ++ v).dropWhile isPySpace = m ++ v := by
      cases m with
      | nil => exact absurd rfl hne
      | cons a m' =>
        simp only [List.headD_cons] at h1
        simp [List.cons_append, List.dropWhile_cons, h1]
    rw [hid]
    exact (List.prefix_append m v).isInfix
  · rw [if_neg he]
    exact (List.prefix_append m v).isInfix.trans (List.suffix_append _ _).isInfix

theorem infix_strip_of_ends {m s : Str} (hne : m ≠ [])
    (h1 : isPySpace (m.headD ' ') = false)
    (h2 : isPySpace (m.reverse.headD ' ') = false) (h : m <:+: s) :
    m <:+: strip s := by
  have hstep1 := infix_dropWhile_of_head hne h1 h
  have hrev : m.reverse <:+: (s.dropWhile isPySpace).reverse :=
    List.reverse_infix.mpr hstep1
  have hner : m.reverse ≠ [] := by
    intro hc
    exact hne (by simpa using congrArg List.reverse hc)
  have hstep2 := infix_dropWhile_of_head hner h2 hrev
  rw [strip_eq]
  have := List.reverse_infix.mpr hstep2
  simpa using this

theorem prefix_strip_of_ends {m s : Str} (hne : m ≠ [])
    (h1 : isPySpace (m.headD ' ') = false)
    (h2 : isPySpace (m.reverse.headD ' ') = false) (h : m <+: s) :
    m <+: strip s := by
  obtain ⟨v, hv⟩ := h
  subst hv
  have hdw : (m ++ v).dropWhile isPySpace = m ++ v := by
    cases m with
    | nil => exact absurd rfl hne
    | cons a m' =>
      simp only [List.headD_cons] at h1
      simp [List.cons_append, List.dropWhile_cons, h1]
  rw [strip_eq, hdw, List.reverse_append, List.dropWhile_append]
  by_cases he : (v.reverse.dropWhile isPySpace).isEmpty
  · rw [if_pos he]
    have hmr : m.reverse.dropWhile isPySpace = m.reverse := by
      cases hm : m.reverse with
      | nil => simp
      | cons a r =>
        rw [hm] at h2
        simp only [List.headD_cons] at h2
        simp [List.dropWhile_cons, h2]
    rw [hmr, List.reverse_reverse]
  · rw [if_neg he, List.reverse_append, List.reverse_reverse]
    exact List.prefix_append m _

theorem strip_of_fullMatch {s : Str} (h : fullMatchDim s = true) : strip s = s := by
  obtain ⟨-, d1, d2, hm, hne1, hne2, ha1, ha2⟩ := dimAt_some (fullMatchDim_iff.mp h)
  have hdw : s.dropWhile isPySpace = s := by
    cases hd1 : d1 with
    | nil => exact absurd hd1 hne1
    | cons a r =>
      have ha : a.isDigit = true :=
        List.all_eq_true.mp ha1 a (by rw [hd1]; exact List.mem_cons_self a r)
      have haw := ws_of_digit ha
      rw [hm, hd1]
      simp [List.cons_append, List.dropWhile_cons, haw]
  have hrw : s.reverse.dropWhile isPySpace = s.reverse := by
    rw [hm]
    simp only [List.reverse_append]
    rw [show litH.reverse = [')', 'H', '('] from rfl, List.cons_append]
    have hws : isPySpace ')' = false := by decide
    rw [List.dropWhile_cons, hws]
    simp
  rw [strip_eq, hdw, hrw, List.reverse_reverse]

/-! Uppercasing lemmas. -/

theorem ws_pyUpper (c : Char) : isPySpace (pyUpper c) = isPySpace c := by
  unfold pyUpper
  by_cases h0 : c = 'a'
  · subst h0; rfl
  rw [if_neg h0]
  by_cases h1 : c = 'b'
  · subst h1; rfl
  rw [if_neg h1]
  by_cases h2 : c = 'c'
  · subst h2; rfl
  rw [if_neg h2]
  by_cases h3 : c = 'd'
  · subst h3; rfl
  rw [if_neg h3]
  by_cases h4 : c = 'e'
  · subst h4; rfl
  rw [if_neg h4]
  by_cases h5 : c = 'f'
  · subst h5; rfl
  rw [if_neg h5]
  by_cases h6 : c = 'g'
  · subst h6; rfl
  rw [if_neg h6]
  by_cases h7 : c = 'h'
  · subst h7; rfl
  rw [if_neg h7]
  by_cases h8 : c = 'i'
  · subst h8; rfl
  rw [if_neg h8]
  by_cases h9 : c = 'j'
  · subst h9; rfl
  rw [if_neg h9]
  by_cases h10 : c = 'k'
  · subst h10; rfl
  rw [if_neg h10]
  by_cases h11 : c = 'l'
  · subst h11; rfl
  rw [if_neg h11]
  by_cases h12 : c = 'm'
  · subst h12; rfl
  rw [if_neg h12]
  by_cases h13 : c = 'n'
  · subst h13; rfl
  rw [if_neg h13]
  by_cases h14 : c = 'o'
  · subst h14; rfl
  rw [if_neg h14]
  by_cases h15 : c = 'p'
  · subst h15; rfl
  rw [if_neg h15]
  by_cases h16 : c = 'q'
  · subst h16; rfl
  rw [if_neg h16]
  by_cases h17 : c = 'r'
  · subst h17; rfl
  rw [if_neg h17]
  by_cases h18 : c = 's'
  · subst h18; rfl
  rw [if_neg h18]
  by_cases h19 : c = 't'
  · subst h19; rfl
  rw [if_neg h19]
  by_cases h20 : c = 'u'
  · subst h20; rfl
  rw [if_neg h20]
  by_cases h21 : c = 'v'
  · subst h21; rfl
  rw [if_neg h21]
  by_cases h22 : c = 'w'
  · subst h22; rfl
  rw [if_neg h22]
  by_cases h23 : c = 'x'
  · subst h23; rfl
  rw [if_neg h23]
  by_cases h24 : c = 'y'
  · subst h24; rfl
  rw [if_neg h24]
  by_cases h25 : c = 'z'
  · subst h25; rfl
  rw [if_neg h25]

theorem dropWhile_ws_map (s : Str) :
    (s.map pyUpper).dropWhile isPySpace = (s.dropWhile isPySpace).map pyUpper := by
  induction s with
  | nil => rfl
  | cons c cs ih =>
    by_cases h : isPySpace c = true <;>
      simp [List.dropWhile_cons, ws_pyUpper, h, ih]

theorem upperStr_strip (s : Str) : upperStr (strip s) = strip (upperStr s) := by
  unfold upperStr
  rw [strip_eq, strip_eq]
  rw [dropWhile_ws_map, ← List.map_reverse, dropWhile_ws_map, ← List.map_reverse]

/-! Validator bridge: the checks performed on the stripped door type
transfer to the raw field. -/

theorem valid_conds {d : DoorRecord} (h : is_valid_door_entry d = true) :
    (∀ p ∈ invalid_patterns, containsS p (upperStr (strip d.door_type)) = false) ∧
    lit000Wx.isPrefixOf (strip d.door_type) = false ∧
    fullMatchDim (strip d.door_type) = false ∧
    (strip d.door_type).any Char.isUpper = true := by
  have he : is_valid_door_entry d =
      (if invalid_patterns.any
          (fun p => containsS p (upperStr (strip d.door_type))) then false
       else if lit000Wx.isPrefixOf (strip d.door_type)
          || fullMatchDim (strip d.door_type) then false
       else (strip d.door_type).any Char.isUpper) := rfl
  rw [he] at h
  by_cases h1 : invalid_patterns.any
      (fun p => containsS p (upperStr (strip d.door_type))) = true
  · rw [if_pos h1] at h
    exact absurd h (by simp)
  rw [if_neg h1] at h
  by_cases h2 : (lit000Wx.isPrefixOf (strip d.door_type)
      || fullMatchDim (strip d.door_type)) = true
  · rw [if_pos h2] at h
    exact absurd h (by simp)
  rw [if_neg h2] at h
  rw [Bool.not_eq_true] at h1 h2
  rw [List.any_eq_false] at h1
  rw [Bool.or_eq_false_iff] at h2
  exact ⟨fun p hp => by rw [← Bool.not_eq_true]; exact h1 p hp, h2.1, h2.2, h⟩

theorem valid_field_conds {d : DoorRecord} (h : is_valid_door_entry d = true) :
    d.door_type.any Char.isUpper = true ∧
    (∀ p ∈ invalid_patterns, containsS p (upperStr d.door_type) = false) ∧
    lit000Wx.isPrefixOf d.door_type = false ∧
    fullMatchDim d.door_type = false := by
  obtain ⟨hmk, hpre, hfull, hup⟩ := valid_conds h
  refine ⟨any_upper_of_strip hup, ?_, ?_, ?_⟩
  · intro p hp
    rw [← Bool.not_eq_true]
    intro hc
    have hinf : p <:+: upperStr d.door_type := containsS_iff.mp hc
    have hfacts : ∀ q ∈ invalid_patterns, (!q.isEmpty
        && !isPySpace (q.headD ' ') && !isPySpace (q.reverse.headD ' ')) = true := by
      decide
    have hq := hfacts p hp
    simp only [Bool.and_eq_true, Bool.not_eq_true'] at hq
    have hpne : p ≠ [] := by
      intro hc
      subst hc
      simp at hq
    have hinf2 : p <:+: strip (upperStr d.door_type) :=
      infix_strip_of_ends hpne hq.1.2 hq.2 hinf
    rw [← upperStr_strip] at hinf2
    have := containsS_iff.mpr hinf2
    rw [hmk p hp] at this
    exact absurd this (by simp)
  · rw [← Bool.not_eq_true]
    intro hc
    have hp : lit000Wx <+: d.door_type := List.isPrefixOf_iff_prefix.mp hc
    have hp2 : lit000Wx <+: strip d.door_type :=
      prefix_strip_of_ends (by decide) (by decide) (by decide) hp
    have := List.isPrefixOf_iff_prefix.mpr hp2
    rw [hpre] at this
    exact absurd this (by simp)
  · rw [← Bool.not_eq_true]
    intro hc
    have hid := strip_of_fullMatch hc
    rw [hid] at hfull
    rw [hfull] at hc
    exact absurd hc (by simp)

theorem mem_ppGo_valid : ∀ (l : List (Except Unit Table)) (acc : List DoorRecord)
    (d : DoorRecord), d ∈ ppGo acc l → d ∈ acc ∨ is_valid_door_entry d = true := by
  intro l
  induction l with
  | nil => intro acc d h; exact Or.inl h
  | cons e rest ih =>
    intro acc d h
    cases e with
    | error u => exact Or.inl h
    | ok t =>
      rcases ih (acc ++ validDoors t) d h with h1 | h1
      · rcases List.mem_append.mp h1 with h2 | h2
        · exact Or.inl h2
        · exact Or.inr (List.mem_filter.mp h2).2
      · exact Or.inr h1

/-! Character facts for door tokens. -/

theorem isdigitS_chars {s : Str} (h : isdigitS s = true) :
    ∀ c ∈ s, c.isDigit = true := by
  unfold isdigitS at h
  simp only [Bool.and_eq_true] at h
  exact fun c hc => List.all_eq_true.mp h.2 c hc

theorem variantTok_chars {s : Str} (h : variantTokB s = true) :
    ∀ c ∈ s, c.isDigit = true ∨ c.isUpper = true := by
  have he : variantTokB s = ((!(s.takeWhile Char.isDigit).isEmpty
      && !(s.dropWhile Char.isDigit).isEmpty)
        && (s.dropWhile Char.isDigit).all Char.isUpper) := rfl
  rw [he] at h
  simp only [Bool.and_eq_true] at h
  intro c hc
  rw [← List.takeWhile_append_dropWhile Char.isDigit s] at hc
  rcases List.mem_append.mp hc with h1 | h1
  · exact Or.inl (List.mem_takeWhile_imp h1)
  · exact Or.inr (List.all_eq_true.mp h.2 c h1)

theorem dim_match_props {t m r : Str} (h : dimAt t = some (m, r)) :
    m ≠ [] ∧ (∀ c ∈ m, isPySpace c = false) ∧ '(' ∈ m ∧ fullMatchDim m = true := by
  obtain ⟨-, d1, d2, hm, h1, h2, ha1, ha2⟩ := dimAt_some h
  refine ⟨?_, ?_, ?_, ?_⟩
  · rw [hm]
    intro hc
    apply h1
    have hlen := congrArg List.length hc
    simp only [List.length_append, List.length_nil] at hlen
    exact List.length_eq_zero.mp (by omega)
  · intro c hc
    rw [hm] at hc
    simp only [List.append_assoc, List.mem_append] at hc
    rcases hc with hc | hc | hc | hc
    · exact ws_of_digit (List.all_eq_true.mp ha1 c hc)
    · revert hc
      have : ∀ x ∈ litWx, isPySpace x = false := by decide
      exact this c
    · exact ws_of_digit (List.all_eq_true.mp ha2 c hc)
    · revert hc
      have : ∀ x ∈ litH, isPySpace x = false := by decide
      exact this c
  · rw [hm]
    simp only [List.append_assoc, List.mem_append]
    right
    left
    decide
  · rw [hm]
    exact fullMatch_build h1 h2 ha1 ha2

/-- A dimension match inside a line with at least two tokens whose
first token is a variant shape lies inside a later token, hence inside
the blank-join of the token tail. -/
theorem joined_contains {line : Str} (hcd : containsDimB line = true)
    (hlen : 2 ≤ (splitWs line).length)
    (hfp : isdigitS ((splitWs line).headD []) = true ∨
      variantTokB ((splitWs line).headD []) = true) :
    containsDimB (joinSpace (splitWs line).tail) = true := by
  obtain ⟨t, hts, hsome⟩ := containsDim_iff.mp hcd
  cases hda : dimAt t with
  | none => rw [hda] at hsome; simp at hsome
  | some p =>
    obtain ⟨m, r⟩ := p
    obtain ⟨hmne, hmw, hparen, hmfull⟩ := dim_match_props hda
    have hmt : m <+: t := ⟨r, ((dimAt_some hda).1).symm⟩
    have hml : m <:+: line := hmt.isInfix.trans hts.isInfix
    obtain ⟨tok, htok, hmtok⟩ := infix_token hmne hmw hml
    cases hsw : splitWs line with
    | nil => rw [hsw] at hlen; simp at hlen
    | cons hd0 tl =>
      rw [hsw] at htok
      rcases List.mem_cons.mp htok with h1 | h1
      · subst h1
        have hparen_tok : '(' ∈ tok := hmtok.sublist.subset hparen
        rw [hsw] at hfp
        simp only [List.headD_cons] at hfp
        rcases hfp with hh | hh
        · exact absurd (isdigitS_chars hh '(' hparen_tok) (by decide)
        · rcases variantTok_chars hh '(' hparen_tok with hd1 | hd1 <;>
            exact absurd hd1 (by decide)
      · have h2 : tok <:+: joinSpace tl := infix_joinSpace tl tok h1
        exact containsDim_of_full_infix hmfull (hmtok.trans h2)

/-! The parser state invariant: the stored dimension string is empty
or contains a dimension match. -/

theorem pdtStep_eq (st : Str × Str) (line : Str) : pdtStep st line =
    (if containsDimB line then
      if 2 ≤ (splitWs line).length then
        if isdigitS ((splitWs line).headD []) ||
            variantTokB ((splitWs line).headD []) then
          (match searchDim (joinSpace (splitWs line).tail) with
            | some m => m
            | none => joinSpace (splitWs line).tail, (splitWs line).headD [])
        else (if st.1.isEmpty then line else st.1, st.2)
      else (if st.1.isEmpty then line else st.1, st.2)
    else
      match splitWs line with
      | [] => (st.1, st.2)
      | fp :: _ =>
        if (isdigitS fp || variantTokB fp) && st.2.isEmpty then (st.1, fp)
        else (st.1, st.2)) := rfl

theorem pdtStep_dims {st : Str × Str} {line : Str}
    (h : st.1 = [] ∨ containsDimB st.1 = true) :
    (pdtStep st line).1 = [] ∨ containsDimB (pdtStep st line).1 = true := by
  rw [pdtStep_eq]
  by_cases h1 : containsDimB line = true
  · rw [if_pos h1]
    by_cases h2 : 2 ≤ (splitWs line).length
    · rw [if_pos h2]
      by_cases h3 : (isdigitS ((splitWs line).headD []) ||
          variantTokB ((splitWs line).headD [])) = true
      · rw [if_pos h3]
        cases hsd : searchDim (joinSpace (splitWs line).tail) with
        | some m =>
          right
          show containsDimB m = true
          have hmem : m ∈ findallDim (joinSpace (splitWs line).tail) :=
            List.mem_of_mem_head? hsd
          exact containsDim_of_full_infix (mem_findallDim_full hmem)
            (List.infix_refl m)
        | none =>
          exfalso
          have hj := joined_contains h1 h2 (by simpa using h3)
          rw [searchDim_none_iff] at hsd
          rw [hj] at hsd
          exact absurd hsd (by simp)
      · rw [if_neg h3]
        by_cases h4 : st.1.isEmpty = true
        · rw [if_pos h4]
          exact Or.inr h1
        · rw [if_neg h4]
          exact h
    · rw [if_neg h2]
      by_cases h4 : st.1.isEmpty = true
      · rw [if_pos h4]
        exact Or.inr h1
      · rw [if_neg h4]
        exact h
  · rw [if_neg h1]
    split <;> first
      | exact h
      | (split <;> exact h)

theorem foldl_pdt_dims : ∀ (lines : List Str) (st : Str × Str),
    (st.1 = [] ∨ containsDimB st.1 = true) →
    ((lines.foldl pdtStep st).1 = [] ∨
      containsDimB (lines.foldl pdtStep st).1 = true) := by
  intro lines
  induction lines with
  | nil => intro st h; exact h
  | cons l rest ih =>
    intro st h
    exact ih _ (pdtStep_dims h)

theorem parse_eq_cons {t code0 : Str} {rest : List Str}
    (hsl : stripLines t = code0 :: rest) :
    parse_door_type t =
      (if !code0.any Char.isUpper then none
       else if lit000W.isPrefixOf code0 then none
       else if containsS litPRECINCT code0 || containsS litDRAWING code0
           || containsS litPROJECT code0 then none
       else
         some ((if ((rest.foldl pdtStep
             (((splitWs code0).find? (fun p => containsDimB p)).getD [], [])).2).isEmpty
           then (splitWs code0).headD []
           else (splitWs code0).headD [] ++ '/' ::
             (rest.foldl pdtStep
               (((splitWs code0).find? (fun p => containsDimB p)).getD [], [])).2),
           (rest.foldl pdtStep
             (((splitWs code0).find? (fun p => containsDimB p)).getD [], [])).1)) := by
  unfold parse_door_type
  rw [hsl]

theorem parse_none_of_nil {t : Str} (hsl : stripLines t = []) :
    parse_door_type t = none := by
  unfold parse_door_type
  rw [hsl]

theorem parse_dims_contains {t code dims : Str}
    (h : parse_door_type t = some (code, dims)) :
    dims = [] ∨ containsDimB dims = true := by
  cases hsl : stripLines t with
  | nil =>
    rw [parse_none_of_nil hsl] at h
    exact absurd h (by simp)
  | cons code0 rest =>
    rw [parse_eq_cons hsl] at h
    by_cases h1 : (!code0.any Char.isUpper) = true
    · rw [if_pos h1] at h
      exact absurd h (by simp)
    rw [if_neg h1] at h
    by_cases h2 : lit000W.isPrefixOf code0 = true
    · rw [if_pos h2] at h
      exact absurd h (by simp)
    rw [if_neg h2] at h
    by_cases h3 : (containsS litPRECINCT code0 || containsS litDRAWING code0
        || containsS litPROJECT code0) = true
    · rw [if_pos h3] at h
      exact absurd h (by simp)
    rw [if_neg h3] at h
    simp only [Option.some.injEq, Prod.mk.injEq] at h
    have hinit : (((splitWs code0).find? (fun p => containsDimB p)).getD [] = [] ∨
        containsDimB (((splitWs code0).find? (fun p => containsDimB p)).getD []) = true) := by
      cases hf : (splitWs code0).find? (fun p => containsDimB p) with
      | none => left; rfl
      | some p => right; exact List.find?_some hf
    have hinv := foldl_pdt_dims rest
      (((splitWs code0).find? (fun p => containsDimB p)).getD [], []) hinit
    rw [h.2] at hinv
    exact hinv

/-! Every dimension carried by a splitter record is an exact match. -/

theorem findPrevDigit_props : ∀ {toks : List Str} {dim a : Str},
    findPrevDigit toks dim = some a → a.length = 1 ∧ isdigitS a = true := by
  intro toks
  induction toks with
  | nil => intro dim a h; simp [findPrevDigit] at h
  | cons x rest ih =>
    intro dim a h
    cases rest with
    | nil => simp [findPrevDigit] at h
    | cons y rest' =>
      unfold findPrevDigit at h
      by_cases hc : (y = dim && x.length = 1 && isdigitS x) = true
      · rw [if_pos hc] at h
        simp only [Option.some.injEq] at h
        subst h
        simp only [Bool.and_eq_true, decide_eq_true_eq] at hc
        exact ⟨hc.1.2, hc.2⟩
      · rw [if_neg hc] at h
        exact ih h

theorem repairDim_full {toks : List Str} {m : Str} (h : fullMatchDim m = true) :
    fullMatchDim (repairDim toks m) = true := by
  unfold repairDim
  by_cases h1 : lit000Wx.isPrefixOf m = true
  · rw [if_pos h1]
    cases hf : findPrevDigit toks m with
    | none => exact h
    | some a =>
      obtain ⟨hlen, hdig⟩ := findPrevDigit_props hf
      obtain ⟨-, d1, d2, hm, hne1, hne2, ha1, ha2⟩ :=
        dimAt_some (fullMatchDim_iff.mp h)
      show fullMatchDim (a ++ m) = true
      rw [hm]
      have he : a ++ (d1 ++ litWx ++ d2 ++ litH) =
          (a ++ d1) ++ litWx ++ d2 ++ litH := by
        simp [List.append_assoc]
      rw [he]
      apply fullMatch_build
      · intro hc
        apply hne1
        have := congrArg List.length hc
        simp only [List.length_append, List.length_nil] at this
        exact List.length_eq_zero.mp (by omega)
      · exact hne2
      · rw [List.all_append]
        have ha : a.all Char.isDigit = true :=
          List.all_eq_true.mpr (isdigitS_chars hdig)
        rw [ha, ha1]
        rfl
      · exact ha2
  · rw [if_neg h1]
    exact h

theorem getD_nil_or_mem (l : List Str) (i : Nat) :
    l.getD i [] = [] ∨ l.getD i [] ∈ l := by
  by_cases h : i < l.length
  · right
    rw [List.getD_eq_getElem l [] h]
    exact List.getElem_mem h
  · left
    rw [List.getD_eq_getElem?_getD, List.getElem?_eq_none (by omega)]
    rfl

theorem collectedDims_full {t : Str} : ∀ x ∈ collectedDims t,
    fullMatchDim x = true := by
  intro x hx
  unfold collectedDims at hx
  obtain ⟨m, hm, hx⟩ := List.mem_map.mp hx
  subst hx
  exact repairDim_full (mem_findallDim_full hm)

theorem fd1Step_dims {acc : List Str × List Str} {l : Str}
    (h : ∀ x ∈ acc.1, fullMatchDim x = true) :
    ∀ x ∈ (fd1Step acc l).1, fullMatchDim x = true := by
  unfold fd1Step
  by_cases h1 : containsS litWx l = true
  · rw [if_pos h1]
    intro x hx
    rcases List.mem_append.mp hx with h2 | h2
    · exact h x h2
    · exact mem_findallDim_full h2
  · rw [if_neg h1]
    by_cases h2 : fd1VarLineB l = true
    · rw [if_pos h2]
      exact h
    · rw [if_neg h2]
      exact h

theorem foldl_fd1_dims : ∀ (lines : List Str) (acc : List Str × List Str),
    (∀ x ∈ acc.1, fullMatchDim x = true) →
    ∀ x ∈ (lines.foldl fd1Step acc).1, fullMatchDim x = true := by
  intro lines
  induction lines with
  | nil => intro acc h; exact h
  | cons l rest ih =>
    intro acc h
    exact ih _ (fd1Step_dims h)

theorem fd1Fallback_dims {t fr de lo re : Str} {r : DoorRecord}
    (h : r ∈ fd1FallbackCode t fr de lo re) :
    r.dimensions = [] ∨ fullMatchDim r.dimensions = true := by
  unfold fd1FallbackCode at h
  by_cases h1 : containsS litFD1FD1 t = true
  · rw [if_pos h1] at h
    obtain ⟨i, -, hr⟩ := List.mem_map.mp h
    have hdims : r.dimensions =
        ((((splitNl t).map strip).filter (fun l => !l.isEmpty)).foldl
          fd1Step ([], [])).1.getD i [] := by
      rw [← hr]
      rfl
    rcases getD_nil_or_mem
        ((((splitNl t).map strip).filter (fun l => !l.isEmpty)).foldl
          fd1Step ([], [])).1 i with h2 | h2
    · left
      rw [hdims]
      exact h2
    · right
      rw [hdims]
      exact foldl_fd1_dims _ ([], []) (by intro x hx; simp at hx) _ h2
  · rw [if_neg h1] at h
    simp at h

theorem mainRecords_dims {t fr de lo re base : Str} {nd : Nat} {rest : List Str}
    {r : DoorRecord} (h : r ∈ mainRecords t fr de lo re base nd rest) :
    r.dimensions = [] ∨ fullMatchDim r.dimensions = true := by
  unfold mainRecords at h
  obtain ⟨i, -, hr⟩ := List.mem_map.mp h
  have hdims : r.dimensions = (collectedDims t).getD i [] := by
    rw [← hr]
    rfl
  rcases getD_nil_or_mem (collectedDims t) i with h2 | h2
  · left
    rw [hdims]
    exact h2
  · right
    rw [hdims]
    exact collectedDims_full _ h2

theorem split_eq_def (t fr de lo re : Str) : split_multi_door_column t fr de lo re =
    (if (stripLines t).length < 2 then []
     else match splitWs ((stripLines t).headD []) with
       | [] => []
       | base :: rps =>
         if (base :: rps).count base < 2 then []
         else if (mainRecords t fr de lo re base ((base :: rps).count base)
             (stripLines t).tail).isEmpty then fd1FallbackCode t fr de lo re
         else mainRecords t fr de lo re base ((base :: rps).count base)
           (stripLines t).tail) := rfl

theorem splitMain_eq_def (t fr de lo re : Str) : splitMainDoors t fr de lo re =
    (if (stripLines t).length < 2 then []
     else match splitWs ((stripLines t).headD []) with
       | [] => []
       | base :: rps =>
         if (base :: rps).count base < 2 then []
         else mainRecords t fr de lo re base ((base :: rps).count base)
           (stripLines t).tail) := rfl

theorem split_dims_shape {t fr de lo re : Str} {r : DoorRecord}
    (h : r ∈ split_multi_door_column t fr de lo re) :
    r.dimensions = [] ∨ fullMatchDim r.dimensions = true := by
  rw [split_eq_def] at h
  by_cases h1 : (stripLines t).length < 2
  · rw [if_pos h1] at h
    simp at h
  rw [if_neg h1] at h
  revert h
  cases hsw : splitWs ((stripLines t).headD []) with
  | nil => intro h; simp at h
  | cons base rps =>
    intro h
    have h' : r ∈ (if (base :: rps).count base < 2 then ([] : List DoorRecord)
        else if (mainRecords t fr de lo re base ((base :: rps).count base)
            (stripLines t).tail).isEmpty = true
          then fd1FallbackCode t fr de lo re
          else mainRecords t fr de lo re base ((base :: rps).count base)
            (stripLines t).tail) := h
    by_cases h2 : (base :: rps).count base < 2
    · rw [if_pos h2] at h'
      simp at h'
    rw [if_neg h2] at h'
    by_cases h3 : (mainRecords t fr de lo re base ((base :: rps).count base)
        (stripLines t).tail).isEmpty = true
    · rw [if_pos h3] at h'
      exact fd1Fallback_dims h'
    · rw [if_neg h3] at h'
      exact mainRecords_dims h'

/-! The legacy FD1 block is unreachable: the splitter always returns
the main strategy's records. -/

theorem mainRecords_length (t fr de lo re base : Str) (nd : Nat) (rest : List Str) :
    (mainRecords t fr de lo re base nd rest).length = nd := by
  unfold mainRecords
  rw [List.length_map, List.length_range]

theorem split_eq_splitMain (t fr de lo re : Str) :
    split_multi_door_column t fr de lo re = splitMainDoors t fr de lo re := by
  rw [split_eq_def, splitMain_eq_def]
  by_cases h1 : (stripLines t).length < 2
  · rw [if_pos h1, if_pos h1]
  rw [if_neg h1, if_neg h1]
  cases hsw : splitWs ((stripLines t).headD []) with
  | nil => rfl
  | cons base rps =>
    show (if (base :: rps).count base < 2 then ([] : List DoorRecord)
        else if (mainRecords t fr de lo re base ((base :: rps).count base)
            (stripLines t).tail).isEmpty = true
          then fd1FallbackCode t fr de lo re
          else mainRecords t fr de lo re base ((base :: rps).count base)
            (stripLines t).tail) =
      (if (base :: rps).count base < 2 then ([] : List DoorRecord)
        else mainRecords t fr de lo re base ((base :: rps).count base)
          (stripLines t).tail)
    by_cases h2 : (base :: rps).count base < 2
    · rw [if_pos h2, if_pos h2]
    rw [if_neg h2, if_neg h2]
    have hlen := mainRecords_length t fr de lo re base ((base :: rps).count base)
      (stripLines t).tail
    rw [if_neg ?_]
    rw [List.isEmpty_iff]
    intro hc
    rw [hc] at hlen
    simp only [List.length_nil] at hlen
    omega

/-! Page-level processing facts. -/

def exOk : Except Unit Table → Bool
  | Except.ok _ => true
  | Except.error _ => false

def exGet : Except Unit Table → Option Table
  | Except.ok t => some t
  | Except.error _ => none

theorem ppGo_append : ∀ (l : List (Except Unit Table)) (acc : List DoorRecord),
    ppGo acc l = acc ++ ppGo [] l := by
  intro l
  induction l with
  | nil => intro acc; simp [ppGo]
  | cons e rest ih =>
    intro acc
    cases e with
    | error u => simp [ppGo]
    | ok t =>
      show ppGo (acc ++ validDoors t) rest = acc ++ ppGo ([] ++ validDoors t) rest
      rw [ih (acc ++ validDoors t), ih ([] ++ validDoors t)]
      simp [List.append_assoc]

theorem processPageTables_takeWhile : ∀ (tl : List (Except Unit Table)),
    processPageTables tl =
      (((tl.takeWhile exOk).filterMap exGet).map validDoors).flatten := by
  intro tl
  induction tl with
  | nil => rfl
  | cons e rest ih =>
    cases e with
    | error u =>
      show ppGo [] (Except.error u :: rest) = _
      rw [show List.takeWhile exOk (Except.error u :: rest) = [] by
        simp [List.takeWhile_cons, exOk]]
      rfl
    | ok t =>
      show ppGo ([] ++ validDoors t) rest = _
      rw [ppGo_append rest ([] ++ validDoors t)]
      rw [show List.takeWhile exOk (Except.ok t :: rest) =
        Except.ok t :: rest.takeWhile exOk by simp [List.takeWhile_cons, exOk]]
      rw [show List.filterMap exGet (Except.ok t :: rest.takeWhile exOk) =
        t :: (rest.takeWhile exOk).filterMap exGet by simp [List.filterMap_cons, exGet]]
      rw [List.map_cons, List.flatten_cons]
      rw [← ih]
      rfl

theorem processPages_append (ps qs : List (List (Except Unit Table))) :
    processPages (ps ++ qs) = processPages ps ++ processPages qs := by
  unfold processPages
  rw [List.map_append, List.flatten_append]

/-! Section scanning facts. -/

def sectionFields (st : SectionSt) : List (Option Nat) :=
  [st.fire, st.desc, st.loc, st.rem]

theorem stepLabel_fields {st : SectionSt} {i : Nat} {l : Str} {j : Nat}
    (h : some j ∈ sectionFields (stepLabel st i l)) :
    some j ∈ sectionFields st ∨ j = i := by
  unfold stepLabel at h
  split_ifs at h <;>
    simp only [sectionFields, List.mem_cons, List.not_mem_nil, or_false,
      Option.some.injEq] at h ⊢ <;>
    tauto

theorem scanGo_bounds : ∀ (f : Nat) (table : Table) (i : Nat) (st : SectionSt),
    i ≤ (scanGo table f i st).2 ∧ (scanGo table f i st).2 ≤ i + f ∧
    (∀ j, some j ∈ sectionFields (scanGo table f i st).1 →
      some j ∈ sectionFields st ∨ (i ≤ j ∧ j < (scanGo table f i st).2)) ∧
    ((scanGo table f i st).2 < i + f →
      rowLabel table (scanGo table f i st).2 = some litELEVATION) := by
  intro f
  induction f with
  | zero =>
    intro table i st
    have he : scanGo table 0 i st = (st, i) := rfl
    rw [he]
    exact ⟨le_refl _, by omega, fun j hj => Or.inl hj, by omega⟩
  | succ f ih =>
    intro table i st
    have he : scanGo table (f + 1) i st = (match rowLabel table i with
      | some l =>
        if l = litELEVATION then (st, i)
        else scanGo table f (i + 1) (stepLabel st i l)
      | none => scanGo table f (i + 1) st) := rfl
    rw [he]
    cases hl : rowLabel table i with
    | none =>
      have hred : (match (none : Option Str) with
        | some l =>
          if l = litELEVATION then (st, i)
          else scanGo table f (i + 1) (stepLabel st i l)
        | none => scanGo table f (i + 1) st) = scanGo table f (i + 1) st := rfl
      rw [hred]
      obtain ⟨ha, hb, hc, hd⟩ := ih table (i + 1) st
      refine ⟨by omega, by omega, ?_, fun hlt => hd (by omega)⟩
      intro j hj
      rcases hc j hj with h1 | h1
      · exact Or.inl h1
      · exact Or.inr ⟨by omega, h1.2⟩
    | some l =>
      have hred : (match (some l : Option Str) with
        | some l =>
          if l = litELEVATION then (st, i)
          else scanGo table f (i + 1) (stepLabel st i l)
        | none => scanGo table f (i + 1) st) =
          (if l = litELEVATION then (st, i)
           else scanGo table f (i + 1) (stepLabel st i l)) := rfl
      rw [hred]
      by_cases helev : l = litELEVATION
      · rw [if_pos helev]
        refine ⟨le_refl _, by omega, fun j hj => Or.inl hj, fun _ => ?_⟩
        rw [hl, helev]
      · rw [if_neg helev]
        obtain ⟨ha, hb, hc, hd⟩ := ih table (i + 1) (stepLabel st i l)
        refine ⟨by omega, by omega, ?_, fun hlt => hd (by omega)⟩
        intro j hj
        rcases hc j hj with h1 | h1
        · rcases stepLabel_fields h1 with h2 | h2
          · exact Or.inl h2
          · exact Or.inr ⟨by omega, by omega⟩
        · exact Or.inr ⟨by omega, h1.2⟩

/-- The well-formedness of one resolved section: field rows lie inside
the section, the effective end does not exceed the bound, and an early
stop happens exactly at an "ELEVATION" row. -/
def sectionOK (table : Table) (a b : Nat) : Prop :=
  a ≤ (scanLabels table a b).2 ∧ (scanLabels table a b).2 ≤ b ∧
  (∀ j, some j ∈ sectionFields (scanLabels table a b).1 →
    a ≤ j ∧ j < (scanLabels table a b).2) ∧
  ((scanLabels table a b).2 < b →
    rowLabel table (scanLabels table a b).2 = some litELEVATION)

theorem scanLabels_ok {table : Table} {a b : Nat} (hab : a ≤ b) :
    sectionOK table a b := by
  obtain ⟨h1, h2, h3, h4⟩ := scanGo_bounds (b - a) table a {}
  have he : a + (b - a) = b := by omega
  rw [he] at h2 h4
  refine ⟨h1, h2, ?_, h4⟩
  intro j hj
  rcases h3 j hj with hc | hc
  · simp [sectionFields] at hc
  · exact hc

theorem findAnchors_lt {table : Table} {a : Nat} (h : a ∈ findAnchors table) :
    a < table.length := by
  unfold findAnchors at h
  exact List.mem_range.mp (List.mem_filter.mp h).1

theorem findAnchors_sorted (table : Table) :
    List.Pairwise (· < ·) (findAnchors table) :=
  List.Pairwise.sublist (List.filter_sublist _) (List.pairwise_lt_range _)

theorem extract_eq_def (table : Table) : extract_doors_from_table table =
    (if table.length < 2 then []
     else if (findAnchors table).isEmpty then []
     else (((findAnchors table).zip ((findAnchors table).tail ++ [table.length])).map
        (fun p => processSection table p.1 p.2)).flatten) := rfl

/-! Concrete fixtures for witnesses and counterexamples. -/

def litMD : Str := "MD".data
def litab : Str := "ab".data
def litDB : Str := "DB".data
def litDB9 : Str := "DB/9".data
def dim900 : Str := "900(W)x2190(H)".data
def dimBad : Str := "A 1250(W)x2240(H)".data
def tMDbad : Str := "MD\nA 1250(W)x2240(H)".data
def tMDMD : Str := "MD MD".data
def tDB2 : Str := "DB DB\n9 900(W)x2190(H) 10 1000(W)x2190(H)".data
def tDB1 : Str := "DB DB 900(W)x2190(H) 1000(W)x2190(H)".data
def tFD1 : Str := "FD1 FD1".data
def tabCD : Str := "ab CD".data
def tableMD : Table := [[some litDOORTYPE, some litMD], [some litREMARKS, none]]
def tableBad : Table := [[some litDOORTYPE, some tMDbad], [some litREMARKS, none]]
def recMD : DoorRecord := mkDoor litMD [] [] [] [] []
def recBad : DoorRecord := mkDoor litMD dimBad [] [] [] []
def recDB9 : DoorRecord := mkDoor litDB9 dim900 [] [] [] []
def tlC2 : List (Except Unit Table) :=
  [Except.ok tableMD, Except.error (), Except.ok tableMD]
def table6 : Table :=
  [[some litDOORTYPE, some litMD], [some litREMARKS, some litMD],
   [some litDOORTYPE, some litMD], [some litELEVATION, none],
   [some litREMARKS, some litMD]]
def table1 : Table := [[some litDOORTYPE, some litMD]]
def rowC8 : List Cell := [some litMD, none, some dim900]

/-! Claim theorems. -/

/-- Claim C1, counterexample: a record emitted through the full
pipeline (table extraction plus validation) whose dimensions field is
nonempty and does not fully match the dimension shape: the dimension
line "A 1250(W)x2240(H)" is stored whole by the single-door path. -/
theorem c1_counterexample :
    processPageTables [Except.ok tableBad] = [recBad] ∧
    recBad.dimensions ≠ [] ∧ fullMatchDim recBad.dimensions = false := by
  refine ⟨?_, ?_, ?_⟩ <;> decide

/-- Claim C1 (amended): records produced by the multi-door splitter
carry dimensions that are empty or exactly of the dimension shape; on
the single-door path the parser guarantees only that a nonempty
dimensions string contains a dimension match, possibly with
surrounding text. -/
theorem c1_dimensions_shape :
    (∀ (t fr de lo re : Str) (r : DoorRecord),
      r ∈ split_multi_door_column t fr de lo re →
      r.dimensions = [] ∨ fullMatchDim r.dimensions = true) ∧
    (∀ (t code dims : Str), parse_door_type t = some (code, dims) →
      dims = [] ∨ containsDimB dims = true) :=
  ⟨fun _ _ _ _ _ _ h => split_dims_shape h,
   fun _ _ _ h => parse_dims_contains h⟩

/-- Witness for C1 (amended) at concrete inputs. -/
theorem c1_dimensions_shape_witness :
    (recDB9.dimensions = [] ∨ fullMatchDim recDB9.dimensions = true) ∧
    (dimBad = [] ∨ containsDimB dimBad = true) :=
  ⟨c1_dimensions_shape.1 tDB2 [] [] [] [] recDB9 (by decide),
   c1_dimensions_shape.2 tMDbad litMD dimBad (by decide)⟩

/-- Claim C2, counterexample: with tables [good, failing, good] on one
page, the records of the table after the failure are lost, while the
claim predicts both good tables contribute. -/
theorem c2_counterexample :
    processPageTables tlC2 = [recMD] ∧
    claimC2expected tlC2 = [recMD, recMD] ∧
    processPageTables tlC2 ≠ claimC2expected tlC2 := by
  refine ⟨?_, ?_, ?_⟩ <;> decide

/-- Claim C2 (amended): the page loop runs inside one try block, so
exactly the tables before the first failing one contribute their valid
records; pages remain isolated from one another. -/
theorem c2_failure_isolation :
    (∀ tl : List (Except Unit Table), processPageTables tl =
      (((tl.takeWhile exOk).filterMap exGet).map validDoors).flatten) ∧
    (∀ ps qs : List (List (Except Unit Table)),
      processPages (ps ++ qs) = processPages ps ++ processPages qs) :=
  ⟨processPageTables_takeWhile, processPages_append⟩

/-- Claim C3, counterexample: the text "FD1 FD1" contains the trigger
sequence and the main algorithm produces zero pairs, yet the splitter
returns the empty list while the legacy rule would emit two records:
the early returns bypass the fallback block. -/
theorem c3_counterexample :
    containsS litFD1FD1 tFD1 = true ∧
    splitMainDoors tFD1 [] [] [] [] = [] ∧
    split_multi_door_column tFD1 [] [] [] [] = [] ∧
    fd1LegacyRule tFD1 [] [] [] [] ≠ [] ∧
    split_multi_door_column tFD1 [] [] [] [] ≠ fd1LegacyRule tFD1 [] [] [] [] := by
  refine ⟨?_, ?_, ?_, ?_, ?_⟩ <;> decide

/-- Claim C3 (amended): the legacy FD1 rule is dead code; the splitter
always returns exactly the records of the main algorithm (steps 1-5),
even when the text contains the two-token sequence "FD1 FD1". -/
theorem c3_fd1_fallback_dead :
    ∀ (t fr de lo re : Str),
      split_multi_door_column t fr de lo re = splitMainDoors t fr de lo re :=
  split_eq_splitMain

/-- Claim C4, counterexample: the uppercase test runs on the whole
first line, not its first token, so "ab CD" is accepted with code "ab"
although the first token has no uppercase letter. -/
theorem c4_counterexample :
    (splitWs ((stripLines tabCD).headD [])).headD [] = litab ∧
    litab.any Char.isUpper = false ∧
    parse_door_type tabCD = some (litab, []) ∧
    parse_door_type tabCD ≠ none := by
  refine ⟨?_, ?_, ?_, ?_⟩ <;> decide

/-- Claim C4 (amended): the parser returns no code exactly when the
stripped input has no nonempty line, or the full first line contains
no uppercase letter, or the first line starts with "000(W)", or the
first line contains "PRECINCT", "DRAWING" or "PROJECT"; in particular
a lowercase-only first token is accepted when later text on the first
line has an uppercase letter. -/
theorem c4_reject_characterization (t : Str) :
    parse_door_type t = none ↔
      (stripLines t = [] ∨
       ∃ code0 rest, stripLines t = code0 :: rest ∧
         (code0.any Char.isUpper = false ∨
          lit000W.isPrefixOf code0 = true ∨
          containsS litPRECINCT code0 = true ∨
          containsS litDRAWING code0 = true ∨
          containsS litPROJECT code0 = true)) := by
  cases hsl : stripLines t with
  | nil => simp [parse_none_of_nil hsl]
  | cons code0 rest =>
    rw [parse_eq_cons hsl]
    constructor
    · intro h
      right
      refine ⟨code0, rest, rfl, ?_⟩
      by_cases h1 : (!code0.any Char.isUpper) = true
      · left
        simpa using h1
      rw [if_neg h1] at h
      by_cases h2 : lit000W.isPrefixOf code0 = true
      · right
        left
        exact h2
      rw [if_neg h2] at h
      by_cases h3 : (containsS litPRECINCT code0 || containsS litDRAWING code0
          || containsS litPROJECT code0) = true
      · right
        right
        simp only [Bool.or_eq_true] at h3
        tauto
      rw [if_neg h3] at h
      exact absurd h (by simp)
    · rintro (h | ⟨code0', rest', heq, hcond⟩)
      · exact absurd h (by simp)
      · simp only [List.cons.injEq] at heq
        obtain ⟨he1, he2⟩ := heq
        subst he1
        by_cases h1 : (!code0.any Char.isUpper) = true
        · rw [if_pos h1]
        rw [if_neg h1]
        by_cases h2 : lit000W.isPrefixOf code0 = true
        · rw [if_pos h2]
        rw [if_neg h2]
        by_cases h3 : (containsS litPRECINCT code0 || containsS litDRAWING code0
            || containsS litPROJECT code0) = true
        · rw [if_pos h3]
        rw [if_neg h3]
        exfalso
        rcases hcond with hc | hc | hc | hc | hc
        · exact h1 (by simp [hc])
        · exact h2 hc
        · exact h3 (by simp [hc])
        · exact h3 (by simp [hc])
        · exact h3 (by simp [hc])

/-- Claim C5, counterexample: a single-line cell whose first line
holds the base code twice and whose text holds exactly two dimension
substrings yields zero records, because the splitter requires at least
two nonempty lines. -/
theorem c5_counterexample :
    (splitWs ((stripLines tDB1).headD [])).count litDB = 2 ∧
    (findallDim tDB1).length = 2 ∧
    split_multi_door_column tDB1 [] [] [] [] = [] := by
  refine ⟨?_, ?_, ?_⟩ <;> decide

/-- Claim C5 (amended): for a cell text with at least two nonempty
lines whose first line holds its first token exactly twice and whose
whole text holds exactly two dimension substrings, the splitter yields
exactly two records, pairing the i-th collected (repaired) dimension
with the i-th record, all carrying the shared column fields. -/
theorem c5_two_door_split (t fr de lo re base : Str) (rps : List Str)
    (hlines : 2 ≤ (stripLines t).length)
    (hsw : splitWs ((stripLines t).headD []) = base :: rps)
    (hcount : (base :: rps).count base = 2)
    (hdims : (findallDim t).length = 2) :
    (split_multi_door_column t fr de lo re).length = 2 ∧
    (split_multi_door_column t fr de lo re).map DoorRecord.dimensions =
      collectedDims t ∧
    (∀ r ∈ split_multi_door_column t fr de lo re,
      r.fire_rating = fr ∧ r.description = de ∧ r.location = lo ∧
        r.remarks = re) := by
  have he : split_multi_door_column t fr de lo re =
      mainRecords t fr de lo re base 2 (stripLines t).tail := by
    rw [split_eq_splitMain, splitMain_eq_def, if_neg (by omega), hsw]
    show (if (base :: rps).count base < 2 then ([] : List DoorRecord)
        else mainRecords t fr de lo re base ((base :: rps).count base)
          (stripLines t).tail) = _
    rw [hcount, if_neg (by omega)]
  rw [he]
  have hcl : (collectedDims t).length = 2 := by
    unfold collectedDims
    rw [List.length_map]
    exact hdims
  refine ⟨mainRecords_length t fr de lo re base 2 (stripLines t).tail, ?_, ?_⟩
  · obtain ⟨x, y, hxy⟩ := List.length_eq_two.mp hcl
    unfold mainRecords
    rw [show List.range 2 = [0, 1] from rfl]
    simp only [List.map_cons, List.map_nil]
    rw [hxy]
    show [x, y] = [x, y]
    rfl
  · intro r hr
    unfold mainRecords at hr
    obtain ⟨i, -, hri⟩ := List.mem_map.mp hr
    rw [← hri]
    exact ⟨rfl, rfl, rfl, rfl⟩

/-- Witness for C5 (amended) at a concrete two-line cell text. -/
theorem c5_two_door_split_witness :
    (split_multi_door_column tDB2 [] [] [] []).length = 2 ∧
    (split_multi_door_column tDB2 [] [] [] []).map DoorRecord.dimensions =
      collectedDims tDB2 ∧
    (∀ r ∈ split_multi_door_column tDB2 [] [] [] [],
      r.fire_rating = [] ∧ r.description = [] ∧ r.location = [] ∧
        r.remarks = []) :=
  c5_two_door_split tDB2 [] [] [] [] litDB [litDB]
    (by decide) (by decide) (by decide) (by decide)

/-- Claim C6: a table whose anchors are exactly two rows with column-0
text "DOOR TYPE" yields the two sections' records in order, each
section's recorded field rows lie inside its own row range, and an
early stop of the label scan happens exactly at an "ELEVATION" row. -/
theorem c6_two_sections (table : Table) (a1 a2 : Nat)
    (h : findAnchors table = [a1, a2]) :
    a1 < a2 ∧ a2 < table.length ∧
    extract_doors_from_table table =
      processSection table a1 a2 ++ processSection table a2 table.length ∧
    sectionOK table a1 a2 ∧ sectionOK table a2 table.length := by
  have hmem2 : a2 ∈ findAnchors table := by
    rw [h]
    simp
  have hlt2 := findAnchors_lt hmem2
  have hsorted := findAnchors_sorted table
  rw [h] at hsorted
  have h12 : a1 < a2 := (List.pairwise_cons.mp hsorted).1 a2 (by simp)
  refine ⟨h12, hlt2, ?_, scanLabels_ok (by omega), scanLabels_ok (by omega)⟩
  rw [extract_eq_def, if_neg (by omega), h, if_neg (by simp)]
  show (([(a1, a2), (a2, table.length)]).map
    (fun p => processSection table p.1 p.2)).flatten = _
  simp

/-- Witness for C6 at a concrete five-row table with two sections. -/
theorem c6_two_sections_witness :
    0 < 2 ∧ 2 < table6.length ∧
    extract_doors_from_table table6 =
      processSection table6 0 2 ++ processSection table6 2 table6.length ∧
    sectionOK table6 0 2 ∧ sectionOK table6 2 table6.length :=
  c6_two_sections table6 0 2 (by decide)

/-- Claim C7: every record surviving the page loop passed the
validator, hence its door type has an uppercase letter, its uppercased
form contains no metadata marker, and it is not a bare dimension
token. -/
theorem c7_validator_invariant (tl : List (Except Unit Table)) (d : DoorRecord)
    (h : d ∈ processPageTables tl) :
    d.door_type.any Char.isUpper = true ∧
    (∀ p ∈ invalid_patterns, containsS p (upperStr d.door_type) = false) ∧
    lit000Wx.isPrefixOf d.door_type = false ∧
    fullMatchDim d.door_type = false := by
  rcases mem_ppGo_valid tl [] d h with h1 | h1
  · simp at h1
  · exact valid_field_conds h1

/-- Witness for C7 at a concrete emitted record. -/
theorem c7_validator_invariant_witness :
    recMD.door_type.any Char.isUpper = true ∧
    (∀ p ∈ invalid_patterns, containsS p (upperStr recMD.door_type) = false) ∧
    lit000Wx.isPrefixOf recMD.door_type = false ∧
    fullMatchDim recMD.door_type = false :=
  c7_validator_invariant [Except.ok tableMD] recMD (by decide)

/-- Claim C8: continuation merging inspects only the next two columns,
merges the first cell whose trimmed text fully matches the dimension
shape (appending it blank-joined) and then stops; cells three or more
columns ahead never influence the result, and non-full matches are
never merged. -/
theorem c8_continuation_merge (row : List Cell) (col : Nat) (text : Str) :
    (∀ j, col + 3 ≤ j → ∀ v, mergeContinuation (row.set j v) col text =
      mergeContinuation row col text) ∧
    (isContinuationCell row (col + 1) = true →
      mergeContinuation row col text =
        text ++ ' ' :: (row.getD (col + 1) none).getD []) ∧
    (isContinuationCell row (col + 1) = false →
      isContinuationCell row (col + 2) = true →
      mergeContinuation row col text =
        text ++ ' ' :: (row.getD (col + 2) none).getD []) ∧
    (isContinuationCell row (col + 1) = false →
      isContinuationCell row (col + 2) = false →
      mergeContinuation row col text = text) := by
  refine ⟨?_, ?_, ?_, ?_⟩
  · intro j hj v
    have h1 : (row.set j v).getD (col + 1) none = row.getD (col + 1) none := by
      rw [List.getD_eq_getElem?_getD, List.getD_eq_getElem?_getD,
        List.getElem?_set_ne (by omega)]
    have h2 : (row.set j v).getD (col + 2) none = row.getD (col + 2) none := by
      rw [List.getD_eq_getElem?_getD, List.getD_eq_getElem?_getD,
        List.getElem?_set_ne (by omega)]
    unfold mergeContinuation isContinuationCell
    rw [h1, h2]
  · intro h
    unfold mergeContinuation
    rw [if_pos h]
  · intro h1 h2
    unfold mergeContinuation
    rw [if_neg (by simp [h1]), if_pos h2]
  · intro h1 h2
    unfold mergeContinuation
    rw [if_neg (by simp [h1]), if_neg (by simp [h2])]

/-- Witness for C8: the cell two columns ahead is merged, and a cell
set three columns ahead does not change the result. -/
theorem c8_continuation_merge_witness :
    mergeContinuation rowC8 0 litMD =
      litMD ++ ' ' :: (rowC8.getD (0 + 2) none).getD [] ∧
    mergeContinuation (rowC8.set 3 (some dim900)) 0 litMD =
      mergeContinuation rowC8 0 litMD :=
  ⟨(c8_continuation_merge rowC8 0 litMD).2.2.1 (by decide) (by decide),
   (c8_continuation_merge rowC8 0 litMD).1 3 (by omega) (some dim900)⟩

/-- Claim C9: once the multi-door heuristic fires on the merged text,
the column's records come only from the splitter (the single-door
parse result is discarded); and there is a cell text, "MD MD", on
which the parser returns a valid code yet the column emits zero
records because the splitter returns no pairs. -/
theorem c9_multi_heuristic :
    (∀ (dtRow frRow deRow loRow reRow : List Cell) (col : Nat) (s : Str),
      dtRow.getD col none = some s →
      (strip s).isEmpty = false →
      (containsS litTENDER s || containsS litDRAWTITLE s) = false →
      parse_door_type (mergeContinuation dtRow col s) ≠ none →
      multiHeuristic (mergeContinuation dtRow col s) = true →
      processColumn dtRow frRow deRow loRow reRow col =
        split_multi_door_column (mergeContinuation dtRow col s)
          (getField frRow col) (getField deRow col)
          (getField loRow col) (getField reRow col)) ∧
    (parse_door_type tMDMD ≠ none ∧
     multiHeuristic tMDMD = true ∧
     processColumn [none, some tMDMD] [] [] [] [] 1 = []) := by
  constructor
  · intro dtRow frRow deRow loRow reRow col s hget hne hmeta hparse hmulti
    have he : processColumn dtRow frRow deRow loRow reRow col =
        (if (strip s).isEmpty then []
         else if containsS litTENDER s || containsS litDRAWTITLE s then []
         else
           match parse_door_type (mergeContinuation dtRow col s) with
           | none => []
           | some (code, dims) =>
             if multiHeuristic (mergeContinuation dtRow col s) then
               split_multi_door_column (mergeContinuation dtRow col s)
                 (getField frRow col) (getField deRow col)
                 (getField loRow col) (getField reRow col)
             else [mkDoor code dims (getField frRow col) (getField deRow col)
               (getField loRow col) (getField reRow col)]) := by
      unfold processColumn
      rw [hget]
    rw [he, if_neg (by simp [hne]), if_neg (by simp [hmeta])]
    cases hp : parse_door_type (mergeContinuation dtRow col s) with
    | none => exact absurd hp hparse
    | some pr =>
      obtain ⟨code, dims⟩ := pr
      show (if multiHeuristic (mergeContinuation dtRow col s) = true then
          split_multi_door_column (mergeContinuation dtRow col s)
            (getField frRow col) (getField deRow col)
            (getField loRow col) (getField reRow col)
        else [mkDoor code dims (getField frRow col) (getField deRow col)
          (getField loRow col) (getField reRow col)]) = _
      rw [if_pos hmulti]
  · refine ⟨?_, ?_, ?_⟩ <;> decide

/-- Witness for C9 at a concrete multi-door column. -/
theorem c9_multi_heuristic_witness :
    processColumn [none, some tDB2] [] [] [] [] 1 =
      split_multi_door_column (mergeContinuation [none, some tDB2] 1 tDB2)
        (getField [] 1) (getField [] 1) (getField [] 1) (getField [] 1) :=
  c9_multi_heuristic.1 [none, some tDB2] [] [] [] [] 1 tDB2
    (by decide) (by decide) (by decide) (by decide) (by decide)

/-- Claim C10: a table with fewer than two rows yields no records. -/
theorem c10_short_table (table : Table) (h : table.length < 2) :
    extract_doors_from_table table = [] := by
  rw [extract_eq_def, if_pos h]

/-- Witness for C10: a one-row table with a "DOOR TYPE" label and a
valid door-type cell still yields no records. -/
theorem c10_short_table_witness :
    table1.length < 2 ∧ extract_doors_from_table table1 = [] :=
  ⟨by decide, c10_short_table table1 (by decide)⟩

end DoorExtract
